import Mathlib

/-!
Verification of the freedesktop-rs desktop-entry parser, data model,
serializer and lookup subsystem against its specification.

The embedding is byte-level: the Rust input slice `&[u8]` is a `List Nat`
(each element a byte value), and a Rust `String` is modelled by its UTF-8
byte sequence, also a `List Nat`.  Parsers follow `src/parser/mod.rs`
(nom 7 combinators, complete variants); the data model, serializer and
lookup follow `src/parser/models.rs`; the trash-file collaborator follows
`src/helpers/trash.rs`.
-/

namespace Freedesktop

/-- Decidable equality of Except values, so that concrete parse results
can be evaluated inside proofs. -/
instance {ε α : Type} [DecidableEq ε] [DecidableEq α] : DecidableEq (Except ε α) := fun x y =>
  match x, y with
  | .ok a, .ok b =>
    if h : a = b then isTrue (by rw [h])
    else isFalse (by intro hh; injection hh; contradiction)
  | .error a, .error b =>
    if h : a = b then isTrue (by rw [h])
    else isFalse (by intro hh; injection hh; contradiction)
  | .ok _, .error _ => isFalse (by intro hh; exact Except.noConfusion hh)
  | .error _, .ok _ => isFalse (by intro hh; exact Except.noConfusion hh)

/-- UTF-8 bytes of an ASCII Lean string literal; used to write concrete
inputs and expected outputs readably.  All concrete strings in this file
are ASCII, where the UTF-8 encoding is the code-point sequence itself. -/
def strBytes (s : String) : List Nat := s.data.map Char.toNat

/-! ## Data model (src/parser/models.rs) -/

/-- A locale of an entry (models.rs, struct Locale): language plus optional
encoding, country and modifier sub-tags.  Each tag is a Rust String,
modelled as its byte sequence. -/
structure Locale where
  lang : List Nat
  encoding : Option (List Nat)
  country : Option (List Nat)
  modifiers : Option (List Nat)
deriving DecidableEq

/-- Significance options for locale-aware lookup (models.rs,
struct LocaleOptions): the reference locale and one flag per optional
sub-tag. -/
structure LocaleOptions where
  locale : Locale
  country : Bool
  encoding : Bool
  modifier : Bool

/-- Locale::equals_options (models.rs lines 388-401): language is always
compared; country, encoding and modifiers only when the corresponding
flag is set. -/
def Locale.equals_options (self : Locale) (options : LocaleOptions) : Bool :=
  let rhs := options.locale
  let res := self.lang == rhs.lang
  let res := if options.country then res && (self.country == rhs.country) else res
  let res := if options.encoding then res && (self.encoding == rhs.encoding) else res
  if options.modifier then res && (self.modifiers == rhs.modifiers) else res

/-- A comment or a blank line (models.rs, enum CommentEntry). -/
inductive CommentEntry where
  | text (s : List Nat)
  | blank (s : List Nat)
deriving DecidableEq

/-- A key-values entry (models.rs, struct ContentEntry). -/
structure ContentEntry where
  key : List Nat
  values : List (List Nat)
  locale : Option Locale
deriving DecidableEq

/-- An entry in a group (models.rs, enum Entry). -/
inductive Entry where
  | content (c : ContentEntry)
  | comment (c : CommentEntry)
deriving DecidableEq

/-- A section of the file (models.rs, struct Group). -/
structure Group where
  header : List Nat
  content : List Entry
deriving DecidableEq

/-- An entry at the root of the file (models.rs, enum TopLevelEntry). -/
inductive TopLevelEntry where
  | group (g : Group)
  | comment (c : CommentEntry)
deriving DecidableEq

/-- The representation of a freedesktop file (models.rs, struct DesktopFile). -/
structure DesktopFile where
  content : List TopLevelEntry
deriving DecidableEq

/-- CommentEntry::is_blank (models.rs lines 337-344). -/
def CommentEntry.is_blank : CommentEntry → Bool
  | .text _ => false
  | .blank _ => true

/-- CanBeComment::is_blank for Entry (models.rs lines 260-266). -/
def Entry.is_blank : Entry → Bool
  | .content _ => false
  | .comment c => c.is_blank

/-- CanBeComment::is_blank for TopLevelEntry (models.rs lines 308-314). -/
def TopLevelEntry.is_blank : TopLevelEntry → Bool
  | .group _ => false
  | .comment c => c.is_blank

/-! ## Serializer (Display impls in src/parser/models.rs) -/

/-- Nat-level model of the ASCII part of char::to_uppercase, applied by
the Locale Display impl to the country tag.  The crate treats its input
as ASCII text (spec section 4.1), so only the ASCII letters are mapped. -/
def asciiUpper (c : Nat) : Nat := if 97 ≤ c && c ≤ 122 then c - 32 else c

/-- Display for Locale (models.rs lines 404-421): lang, then the country
upper-cased behind an underscore, then the encoding behind a dot, then
the modifiers behind an at sign, each only when present. -/
def Locale.display (l : Locale) : List Nat :=
  l.lang
    ++ (match l.country with
        | some c => 95 :: c.map asciiUpper
        | none => [])
    ++ (match l.encoding with
        | some e => 46 :: e
        | none => [])
    ++ (match l.modifiers with
        | some m => 64 :: m
        | none => [])

/-- Vec::join with a single semicolon, as used by the ContentEntry
Display impl for the value list. -/
def joinSemi : List (List Nat) → List Nat
  | [] => []
  | [v] => v
  | v :: vs => v ++ 59 :: joinSemi vs

/-- Display for ContentEntry (models.rs lines 359-369): key, the bracketed
locale when present, an equals sign, and the values joined by semicolons
(no re-escaping on output). -/
def ContentEntry.display (e : ContentEntry) : List Nat :=
  e.key
    ++ (match e.locale with
        | some l => 91 :: (l.display ++ [93])
        | none => [])
    ++ 61 :: joinSemi e.values

/-- Display for CommentEntry (models.rs lines 326-335): a text comment is
written as a hash and a single space followed by the stored text; a blank
is written verbatim. -/
def CommentEntry.display : CommentEntry → List Nat
  | .text s => 35 :: 32 :: s
  | .blank s => s

/-- Display for Entry (models.rs lines 243-250). -/
def Entry.display : Entry → List Nat
  | .content c => c.display
  | .comment c => c.display

/-- write_content (models.rs lines 477-491): items in order, a newline
after every item that has a successor and is not a blank. -/
def write_content (disp : α → List Nat) (blank : α → Bool) : List α → List Nat
  | [] => []
  | [x] => disp x
  | x :: y :: rest =>
      disp x ++ (if blank x then [] else [10]) ++ write_content disp blank (y :: rest)

/-- Display for Group (models.rs lines 124-130): the bracketed header, a
newline, then the content through write_content. -/
def Group.display (g : Group) : List Nat :=
  91 :: (g.header ++ 93 :: 10 :: write_content Entry.display Entry.is_blank g.content)

/-- Display for TopLevelEntry (models.rs lines 291-298). -/
def TopLevelEntry.display : TopLevelEntry → List Nat
  | .group g => g.display
  | .comment c => c.display

/-- Display for DesktopFile (models.rs lines 471-475): the whole document
through write_content. -/
def DesktopFile.display (d : DesktopFile) : List Nat :=
  write_content TopLevelEntry.display TopLevelEntry.is_blank d.content

/-! ## Lookup (EntrySet impls in src/parser/models.rs) -/

/-- Crate error type (src/error.rs). -/
inductive Error where
  | notAscii (c : Nat)
  | notFound (key : List Nat)
  | dateParsing
  | dateFormat
deriving DecidableEq

/-- The content entries of a group in order, comments skipped: the
filter_map shared by Group::without_comments, Group::find and
Group::find_with_locale (models.rs). -/
def Group.contentEntries (g : Group) : List ContentEntry :=
  g.content.filterMap fun e =>
    match e with
    | .content c => some c
    | .comment _ => none

/-- Group::find (models.rs lines 159-167): first content entry with the
key, comments skipped.  Group::find_mut selects the same entry. -/
def Group.find (g : Group) (key : List Nat) : Option ContentEntry :=
  g.contentEntries.find? fun e => e.key == key

/-- EntrySet::get for Group (models.rs lines 25-27). -/
def Group.get (g : Group) (key : List Nat) : Except Error ContentEntry :=
  match g.find key with
  | some e => .ok e
  | none => .error (.notFound key)

/-- Group::find_with_locale (models.rs lines 182-195): first content entry
whose key matches and whose locale, when present, satisfies
equals_options. -/
def Group.find_with_locale (g : Group) (key : List Nat) (options : LocaleOptions) :
    Option ContentEntry :=
  g.contentEntries.find? fun e =>
    e.key == key &&
      (match e.locale with
       | none => true
       | some l => l.equals_options options)

/-- The groups of a document in order, comments skipped
(DesktopFile::without_comments, models.rs lines 433-441). -/
def DesktopFile.groups (d : DesktopFile) : List Group :=
  d.content.filterMap fun t =>
    match t with
    | .group g => some g
    | .comment _ => none

/-- DesktopFile::find (models.rs lines 453-458): first group with the
header.  DesktopFile::find_mut selects the same group. -/
def DesktopFile.find (d : DesktopFile) (header : List Nat) : Option Group :=
  d.groups.find? fun g => g.header == header

/-- EntrySet::get for DesktopFile (models.rs lines 25-27). -/
def DesktopFile.get (d : DesktopFile) (header : List Nat) : Except Error Group :=
  match d.find header with
  | some g => .ok g
  | none => .error (.notFound header)

/-! ## Nat-level models of Rust string primitives

parse_single_value applies String::from_utf8 and str::trim to parsed
bytes, and the other map_res sites apply str::from_utf8; these are
modelled exactly, at the byte level. -/

/-- Whether a byte is a UTF-8 continuation byte. -/
def isCont (c : Nat) : Bool := 128 ≤ c && c ≤ 191

/-- UTF-8 validity of a byte sequence, the test performed by
String::from_utf8 / str::from_utf8. -/
def utf8Valid : List Nat → Bool
  | [] => true
  | c :: rest =>
    if c ≤ 127 then utf8Valid rest
    else
      match rest with
      | [] => false
      | c1 :: rest1 =>
        if 194 ≤ c && c ≤ 223 then isCont c1 && utf8Valid rest1
        else
          match rest1 with
          | [] => false
          | c2 :: rest2 =>
            if c = 224 then (160 ≤ c1 && c1 ≤ 191) && isCont c2 && utf8Valid rest2
            else if (225 ≤ c && c ≤ 236) || c = 238 || c = 239 then
              isCont c1 && isCont c2 && utf8Valid rest2
            else if c = 237 then (128 ≤ c1 && c1 ≤ 159) && isCont c2 && utf8Valid rest2
            else
              match rest2 with
              | [] => false
              | c3 :: rest3 =>
                if c = 240 then
                  (144 ≤ c1 && c1 ≤ 191) && isCont c2 && isCont c3 && utf8Valid rest3
                else if 241 ≤ c && c ≤ 243 then
                  isCont c1 && isCont c2 && isCont c3 && utf8Valid rest3
                else if c = 244 then
                  (128 ≤ c1 && c1 ≤ 143) && isCont c2 && isCont c3 && utf8Valid rest3
                else false

/-- str::from_utf8 / String::from_utf8 as used with map_res: the byte
sequence itself when valid, failure otherwise. -/
def utf8? (v : List Nat) : Option (List Nat) :=
  if utf8Valid v then some v else none

/-- The ASCII whitespace bytes stripped by str::trim. -/
def asciiWs (c : Nat) : Bool :=
  c = 9 || c = 10 || c = 11 || c = 12 || c = 13 || c = 32

/-- str::trim at the UTF-8 byte level, leading side: strips the encodings
of every char with the White_Space property (ASCII whitespace, U+0085,
U+00A0, U+1680, U+2000..U+200A, U+2028, U+2029, U+202F, U+205F, U+3000). -/
def trimStart : List Nat → List Nat
  | [] => []
  | 194 :: d :: rest => if d = 133 || d = 160 then trimStart rest else 194 :: d :: rest
  | 225 :: 154 :: 128 :: rest => trimStart rest
  | 226 :: 128 :: d :: rest =>
      if (128 ≤ d && d ≤ 138) || d = 168 || d = 169 || d = 175 then trimStart rest
      else 226 :: 128 :: d :: rest
  | 226 :: 129 :: 159 :: rest => trimStart rest
  | 227 :: 128 :: 128 :: rest => trimStart rest
  | c :: rest => if asciiWs c then trimStart rest else c :: rest

/-- str::trim, trailing side, over the reversed byte sequence (so a
multi-byte whitespace char appears with its continuation bytes first);
unambiguous on valid UTF-8 because lead bytes are never continuation
bytes. -/
def trimEndRev : List Nat → List Nat
  | [] => []
  | d :: 194 :: rest => if d = 133 || d = 160 then trimEndRev rest else d :: 194 :: rest
  | 128 :: 154 :: 225 :: rest => trimEndRev rest
  | d :: 128 :: 226 :: rest =>
      if (128 ≤ d && d ≤ 138) || d = 168 || d = 169 || d = 175 then trimEndRev rest
      else d :: 128 :: 226 :: rest
  | 159 :: 129 :: 226 :: rest => trimEndRev rest
  | 128 :: 128 :: 227 :: rest => trimEndRev rest
  | c :: rest => if asciiWs c then trimEndRev rest else c :: rest

/-- str::trim over UTF-8 bytes: strip leading then trailing whitespace
chars. -/
def trimBytes (l : List Nat) : List Nat :=
  (trimEndRev (trimStart l).reverse).reverse

/-! ## Parser (src/parser/mod.rs, nom 7 complete combinators)

A parse result is either the remaining input paired with the parsed
value, or a nom error: the remaining input at the failure site paired
with an error code.  The parsers of this crate produce only recoverable
errors (nom Err::Error; nothing ever builds Err::Failure, and complete
combinators never produce Incomplete), so a single error constructor is
a faithful model.  The unbounded nom loops (many0, many_till) are given
explicit fuel of one more than the input length, which is shown
sufficient because each loop body consumes at least one byte. -/

/-- Error codes of the nom combinators used by the crate, plus a fuel
marker for the loop models. -/
inductive ErrKind where
  | char
  | crlf
  | eofErr
  | isNotErr
  | multispace
  | mapRes
  | many0Err
  | manyTillErr
  | escapedTransform
  | fuelErr
deriving DecidableEq

/-- Result of a parser over byte input. -/
abbrev ParseResult (α : Type) := Except (List Nat × ErrKind) (List Nat × α)

/-- nom character::complete::char: exactly the given byte. -/
def pchar (c : Nat) (input : List Nat) : ParseResult Nat :=
  match input with
  | b :: rest => if b = c then .ok (rest, b) else .error (input, .char)
  | [] => .error (input, .char)

/-- nom character::complete::line_ending: a line feed, or a carriage
return followed by a line feed. -/
def line_ending (input : List Nat) : ParseResult (List Nat) :=
  match input with
  | 10 :: rest => .ok (rest, [10])
  | 13 :: 10 :: rest => .ok (rest, [13, 10])
  | _ => .error (input, .crlf)

/-- nom combinator::eof: succeeds exactly on empty input. -/
def eofP (input : List Nat) : ParseResult (List Nat) :=
  match input with
  | [] => .ok ([], [])
  | _ => .error (input, .eofErr)

/-- The space characters of nom space0. -/
def isSpaceTab (c : Nat) : Bool := c = 32 || c = 9

/-- The whitespace characters of nom multispace1. -/
def isMultispace (c : Nat) : Bool := c = 32 || c = 9 || c = 13 || c = 10

/-- nom character::complete::multispace1: one or more spaces, tabs,
carriage returns or line feeds. -/
def multispace1 (input : List Nat) : ParseResult (List Nat) :=
  match input.takeWhile isMultispace with
  | [] => .error (input, .multispace)
  | run => .ok (input.dropWhile isMultispace, run)

/-- parse_blank_comment_entry (mod.rs lines 79-82): multispace1 through
map_res with str::from_utf8, wrapped as a Blank comment. -/
def parse_blank_comment_entry (input : List Nat) : ParseResult CommentEntry :=
  match multispace1 input with
  | .error e => .error e
  | .ok (rem, run) =>
    match utf8? run with
    | some s => .ok (rem, .blank s)
    | none => .error (input, .mapRes)

/-- The byte predicate of parse_text_comment_entry: item.is_ascii() and
not a newline. -/
def isTextByte (c : Nat) : Bool := c ≤ 127 && c ≠ 10

/-- parse_text_comment_entry (mod.rs lines 88-105): a hash, any run of
spaces and tabs (space0), the ASCII line body, and a terminating line
feed; stored without the hash and without the whole space run. -/
def parse_text_comment_entry (input : List Nat) : ParseResult CommentEntry :=
  match pchar 35 input with
  | .error e => .error e
  | .ok (rem, _) =>
    let rem1 := rem.dropWhile isSpaceTab
    let body := rem1.takeWhile isTextByte
    let rem2 := rem1.dropWhile isTextByte
    match pchar 10 rem2 with
    | .error e => .error e
    | .ok (rem3, _) =>
      match utf8? body with
      | some s => .ok (rem3, .text s)
      | none => .error (input, .mapRes)

/-- parse_comment_entry (mod.rs lines 84-86): blank first, then text;
on double failure nom alt keeps the last error. -/
def parse_comment_entry (input : List Nat) : ParseResult CommentEntry :=
  match parse_blank_comment_entry input with
  | .ok r => .ok r
  | .error _ => parse_text_comment_entry input

/-- The key byte predicate of parse_key: nom AsChar::as_char reads the
byte as a Latin-1 char and char::is_alphanumeric is asked, or the byte
is a dash.  Beyond ASCII digits and letters this admits the Latin-1
alphanumerics U+00AA U+00B2 U+00B3 U+00B5 U+00B9 U+00BA U+00BC U+00BD
U+00BE, U+00C0..U+00D6, U+00D8..U+00F6 and U+00F8..U+00FF. -/
def isKeyByte (c : Nat) : Bool :=
  (48 ≤ c && c ≤ 57) || (65 ≤ c && c ≤ 90) || (97 ≤ c && c ≤ 122) || c = 45
    || c = 170 || c = 178 || c = 179 || c = 181 || c = 185 || c = 186
    || c = 188 || c = 189 || c = 190
    || (192 ≤ c && c ≤ 214) || (216 ≤ c && c ≤ 246) || (248 ≤ c && c ≤ 255)

/-- parse_key (mod.rs lines 107-116): take_while of the key bytes through
map_res with str::from_utf8. -/
def parse_key (input : List Nat) : ParseResult (List Nat) :=
  match utf8? (input.takeWhile isKeyByte) with
  | some s => .ok (input.dropWhile isKeyByte, s)
  | none => .error (input, .mapRes)

/-- The transform of the escaped_transform call in parse_single_value
(mod.rs lines 132-142): after a backslash, the chars n r s t are mapped
to the two-byte sequences backslash-n, backslash-r, backslash-s,
backslash-t (the Rust literals are escaped a second time), a backslash
to a single backslash, and a semicolon to backslash-semicolon; anything
else fails (with the char error of the last alt arm). -/
def escapeMap (c : Nat) : Option (List Nat) :=
  if c = 110 then some [92, 110]
  else if c = 114 then some [92, 114]
  else if c = 115 then some [92, 115]
  else if c = 116 then some [92, 116]
  else if c = 92 then some [92]
  else if c = 59 then some [92, 59]
  else none

/-- The normal-byte predicate of the escaped_transform call: is_not of
backslash, semicolon, line feed. -/
def isNormalValByte (c : Nat) : Bool := !(c = 92 || c = 59 || c = 10)

/-- nom bytes::complete::escaped_transform specialized to the call in
parse_single_value: alternating runs of normal bytes and backslash
escapes, transcribed from the nom 7 loop.  The flag records whether the
loop is still at its first position (index 0), where hitting a
semicolon or line feed immediately is an EscapedTransform error rather
than an empty success; an unterminated trailing backslash is an
EscapedTransform error, and an unknown escape char fails with the
transform error. -/
def escaped_transform_val : List Nat → Bool → List Nat → ParseResult (List Nat)
  | [], _, acc => .ok ([], acc)
  | c :: rs, isStart, acc =>
    if isNormalValByte c then escaped_transform_val rs false (acc ++ [c])
    else if c = 92 then
      match rs with
      | [] => .error ([92], .escapedTransform)
      | e :: rs1 =>
        match escapeMap e with
        | some out => escaped_transform_val rs1 false (acc ++ out)
        | none => .error (e :: rs1, .char)
    else if isStart then .error (c :: rs, .escapedTransform)
    else .ok (c :: rs, acc)

/-- The map_res function of parse_single_value (mod.rs line 144):
String::from_utf8 then str::trim. -/
def valueOfBytes (v : List Nat) : Option (List Nat) :=
  if utf8Valid v then some (trimBytes v) else none

/-- parse_single_value (mod.rs lines 126-149): the escaped_transform
through map_res (UTF-8 check and trim), terminated by an optional
semicolon. -/
def parse_single_value (input : List Nat) : ParseResult (List Nat) :=
  match escaped_transform_val input true [] with
  | .error e => .error e
  | .ok (rem, v) =>
    match valueOfBytes v with
    | none => .error (input, .mapRes)
    | some s =>
      match pchar 59 rem with
      | .ok (rem1, _) => .ok (rem1, s)
      | .error _ => .ok (rem, s)

/-- The nom many_till loop of parse_value, with explicit fuel: at each
step the terminator alt(line_ending, eof) is tried first; otherwise one
value is parsed, with the nom infinite-loop guard (a step that consumes
nothing is a ManyTill error). -/
def many_till_value : Nat → List Nat → ParseResult (List (List Nat))
  | 0, input => .error (input, .fuelErr)
  | fuel + 1, input =>
    match (match line_ending input with
           | .ok r => .ok r
           | .error _ => eofP input : ParseResult (List Nat)) with
    | .ok (rem, _) => .ok (rem, [])
    | .error _ =>
      match parse_single_value input with
      | .error e => .error e
      | .ok (rem, v) =>
        if rem.length = input.length then .error (rem, .manyTillErr)
        else
          match many_till_value fuel rem with
          | .ok (rem1, vs) => .ok (rem1, v :: vs)
          | .error e => .error e

/-- parse_value (mod.rs lines 118-124): values until a line ending or end
of input, keeping only the value list. -/
def parse_value (input : List Nat) : ParseResult (List (List Nat)) :=
  many_till_value (input.length + 1) input

/-- Modelled from the spec: the conversion of a raw bracketed locale
string into the structured Locale is not present under src/ (the parser
in mod.rs stores the raw string while models.rs declares the field as a
Locale); section 3 of the spec gives the syntax lang_COUNTRY.ENCODING@MODIFIER,
so the raw string is split at the first at sign (modifier), then the
first dot (encoding), then the first underscore (country). -/
def splitOnce (sep : Nat) : List Nat → Option (List Nat × List Nat)
  | [] => none
  | c :: rest =>
    if c = sep then some ([], rest)
    else
      match splitOnce sep rest with
      | some (a, b) => some (c :: a, b)
      | none => none

/-- Modelled from the spec: structured Locale from the raw bracketed
locale string, following the lang_COUNTRY.ENCODING@MODIFIER syntax of
spec section 3 (see splitOnce). -/
def localeOfString (s : List Nat) : Locale :=
  let p1 := match splitOnce 64 s with
            | some (a, b) => (a, some b)
            | none => (s, none)
  let p2 := match splitOnce 46 p1.1 with
            | some (a, b) => (a, some b)
            | none => (p1.1, none)
  let p3 := match splitOnce 95 p2.1 with
            | some (a, b) => (a, some b)
            | none => (p2.1, none)
  { lang := p3.1, encoding := p2.2, country := p3.2, modifiers := p1.2 }

/-- The opportunistic locale recognizer inside parse_content_entry
(mod.rs lines 153-157): a bracketed run without inner brackets, through
map_res with str::from_utf8. -/
def parse_locale_bracket (input : List Nat) : ParseResult (List Nat) :=
  match pchar 91 input with
  | .error e => .error e
  | .ok (rem, _) =>
    let loc := rem.takeWhile fun c => c ≠ 91 && c ≠ 93
    let rem1 := rem.dropWhile fun c => c ≠ 91 && c ≠ 93
    match pchar 93 rem1 with
    | .error e => .error e
    | .ok (rem2, _) =>
      match utf8? loc with
      | some s => .ok (rem2, s)
      | none => .error (input, .mapRes)

/-- The tail of parse_content_entry after the key and the locale trial
(mod.rs lines 167-176): space0, an equals sign, space0, then the value
list. -/
def parse_content_rest (key : List Nat) (locale : Option (List Nat))
    (input : List Nat) : ParseResult ContentEntry :=
  let r := input.dropWhile isSpaceTab
  match pchar 61 r with
  | .error e => .error e
  | .ok (r1, _) =>
    let r2 := r1.dropWhile isSpaceTab
    match parse_value r2 with
    | .error e => .error e
    | .ok (r3, values) =>
      .ok (r3, { key := key, values := values, locale := locale.map localeOfString })

/-- parse_content_entry (mod.rs lines 151-177): the key, an opportunistic
locale bracket (kept only when it parses, with the input rewound
otherwise), then the equals sign and values. -/
def parse_content_entry (input : List Nat) : ParseResult ContentEntry :=
  match parse_key input with
  | .error e => .error e
  | .ok (rem, key) =>
    match parse_locale_bracket rem with
    | .ok (rem1, loc) => parse_content_rest key (some loc) rem1
    | .error _ => parse_content_rest key none rem

/-- parse_entry (mod.rs lines 71-77): a comment entry first, else a
content entry. -/
def parse_entry (input : List Nat) : ParseResult Entry :=
  match parse_comment_entry input with
  | .ok (rem, c) => .ok (rem, .comment c)
  | .error _ =>
    match parse_content_entry input with
    | .ok (rem, c) => .ok (rem, .content c)
    | .error e => .error e

/-- The nom many0 loop with explicit fuel: collect successes until the
inner parser fails; a success that consumes nothing is a Many0 error
(the nom infinite-loop guard). -/
def many0F (p : List Nat → ParseResult α) : Nat → List Nat → ParseResult (List α)
  | 0, input => .error (input, .fuelErr)
  | fuel + 1, input =>
    match p input with
    | .error _ => .ok (input, [])
    | .ok (rem, v) =>
      if rem.length = input.length then .error (input, .many0Err)
      else
        match many0F p fuel rem with
        | .ok (rem1, vs) => .ok (rem1, v :: vs)
        | .error e => .error e

/-- parse_group_header (mod.rs lines 56-65): a bracketed header run
without inner brackets, an optional line feed, through map_res with
str::from_utf8. -/
def parse_group_header (input : List Nat) : ParseResult (List Nat) :=
  match pchar 91 input with
  | .error e => .error e
  | .ok (rem, _) =>
    let hdr := rem.takeWhile fun c => c ≠ 91 && c ≠ 93
    let rem1 := rem.dropWhile fun c => c ≠ 91 && c ≠ 93
    match pchar 93 rem1 with
    | .error e => .error e
    | .ok (rem2, _) =>
      let rem3 := match pchar 10 rem2 with
                  | .ok (r, _) => r
                  | .error _ => rem2
      match utf8? hdr with
      | some s => .ok (rem3, s)
      | none => .error (input, .mapRes)

/-- parse_group_content (mod.rs lines 67-69): many0 of parse_entry. -/
def parse_group_content (input : List Nat) : ParseResult (List Entry) :=
  many0F parse_entry (input.length + 1) input

/-- parse_group (mod.rs lines 44-54): header then content. -/
def parse_group (input : List Nat) : ParseResult Group :=
  match parse_group_header input with
  | .error e => .error e
  | .ok (rem, header) =>
    match parse_group_content rem with
    | .error e => .error e
    | .ok (rem1, content) => .ok (rem1, { header := header, content := content })

/-- parse_top_level_entry (mod.rs lines 36-42): a group first, else a
comment entry. -/
def parse_top_level_entry (input : List Nat) : ParseResult TopLevelEntry :=
  match parse_group input with
  | .ok (rem, g) => .ok (rem, .group g)
  | .error _ =>
    match parse_comment_entry input with
    | .ok (rem, c) => .ok (rem, .comment c)
    | .error e => .error e

/-- TryFrom of a byte slice for DesktopFile (mod.rs lines 15-26): many0
of parse_top_level_entry; the unconsumed remainder is discarded and only
the collected entries are kept. -/
def DesktopFile.tryFrom (input : List Nat) : Except (List Nat × ErrKind) DesktopFile :=
  match many0F parse_top_level_entry (input.length + 1) input with
  | .ok (_, content) => .ok { content := content }
  | .error e => .error e

/-! ## Trash-file collaborator (src/helpers/trash.rs) -/

/-- The group name constant of trash.rs. -/
def trashHeader : List Nat := strBytes "Trash Info"

/-- The Path key of trash.rs. -/
def pathKey : List Nat := strBytes "Path"

/-- The DeletionDate key of trash.rs. -/
def dateKey : List Nat := strBytes "DeletionDate"

/-- A point in time as carried by time::PrimitiveDateTime, restricted to
the fields named by the fixed format description
year-month-dayThour:minute:second. -/
structure DateTime where
  year : Nat
  month : Nat
  day : Nat
  hour : Nat
  minute : Nat
  second : Nat
deriving DecidableEq

/-- Decimal digits of a natural number, structurally recursive on a fuel
bound so that concrete dates evaluate inside the kernel. -/
def natDigitsAux : Nat → Nat → List Nat
  | 0, _ => []
  | fuel + 1, n => if n < 10 then [48 + n] else natDigitsAux fuel (n / 10) ++ [48 + n % 10]

/-- Decimal digits of a natural number, as ASCII bytes. -/
def natDigits (n : Nat) : List Nat := natDigitsAux (n + 1) n

/-- Left zero-padding to a width, as the time format descriptions use. -/
def padDigits (w : Nat) (ds : List Nat) : List Nat :=
  List.replicate (w - ds.length) 48 ++ ds

/-- PrimitiveDateTime::format with the DATE_FORMAT of trash.rs
(year 4 digits, month, day, hour, minute, second 2 digits each): total on
the model, matching that formatting a valid date never fails. -/
def formatDate (d : DateTime) : List Nat :=
  padDigits 4 (natDigits d.year) ++ 45 :: padDigits 2 (natDigits d.month)
    ++ 45 :: padDigits 2 (natDigits d.day) ++ 84 :: padDigits 2 (natDigits d.hour)
    ++ 58 :: padDigits 2 (natDigits d.minute) ++ 58 :: padDigits 2 (natDigits d.second)

/-- Value of an ASCII digit byte. -/
def digitVal (c : Nat) : Option Nat :=
  if 48 ≤ c && c ≤ 57 then some (c - 48) else none

/-- Days in a month, with leap years, as the time crate validates. -/
def daysInMonth (year month : Nat) : Nat :=
  if month = 2 then
    if year % 4 = 0 && (year % 100 ≠ 0 || year % 400 = 0) then 29 else 28
  else if month = 4 || month = 6 || month = 9 || month = 11 then 30
  else 31

/-- PrimitiveDateTime::parse with the DATE_FORMAT of trash.rs: exactly
nineteen bytes in the shape dddd-dd-ddTdd:dd:dd, with the component
ranges the time crate enforces (month 1..12, day 1..days of the month,
hour below 24, minute and second below 60). -/
def parseDateTime (s : List Nat) : Option DateTime :=
  match s with
  | [y1, y2, y3, y4, 45, m1, m2, 45, d1, d2, 84, h1, h2, 58, mi1, mi2, 58, s1, s2] =>
    match digitVal y1, digitVal y2, digitVal y3, digitVal y4,
          digitVal m1, digitVal m2, digitVal d1, digitVal d2,
          digitVal h1, digitVal h2, digitVal mi1, digitVal mi2,
          digitVal s1, digitVal s2 with
    | some a1, some a2, some a3, some a4, some b1, some b2, some c1, some c2,
      some e1, some e2, some f1, some f2, some g1, some g2 =>
      let year := ((a1 * 10 + a2) * 10 + a3) * 10 + a4
      let month := b1 * 10 + b2
      let day := c1 * 10 + c2
      let hour := e1 * 10 + e2
      let minute := f1 * 10 + f2
      let second := g1 * 10 + g2
      if 1 ≤ month && month ≤ 12 && 1 ≤ day && day ≤ daysInMonth year month
          && hour ≤ 23 && minute ≤ 59 && second ≤ 59 then
        some { year := year, month := month, day := day,
               hour := hour, minute := minute, second := second }
      else none
    | _, _, _, _, _, _, _, _, _, _, _, _, _, _ => none
  | _ => none

/-- Representation of a freedesktop trash file (trash.rs, struct
TrashFile). -/
structure TrashFile where
  desktop_file : DesktopFile
  path : List Nat
  deletion_date : DateTime
deriving DecidableEq

/-- Functional reading of group.find_mut(key) followed by an assignment
to the values of the found entry (trash.rs lines 45-57): replace the
value list of the first content entry with the key, or report that no
entry has the key. -/
def setFirstValues (key : List Nat) (vals : List (List Nat)) :
    List Entry → Option (List Entry)
  | [] => none
  | .content c :: rest =>
    if c.key == key then some (.content { c with values := vals } :: rest)
    else
      match setFirstValues key vals rest with
      | some rest1 => some (.content c :: rest1)
      | none => none
  | .comment c :: rest =>
    match setFirstValues key vals rest with
    | some rest1 => some (.comment c :: rest1)
    | none => none

/-- The in-place group edit of the TryFrom of TrashFile for DesktopFile
(trash.rs lines 44-57): replace the values of the first Path entry or
push a fresh Path entry at the end, then the same for DeletionDate. -/
def editTrashGroup (path raw_date : List Nat) (g : Group) : Group :=
  let content1 :=
    match setFirstValues pathKey [path] g.content with
    | some c => c
    | none => g.content ++ [Entry.content { key := pathKey, values := [path], locale := none }]
  let content2 :=
    match setFirstValues dateKey [raw_date] content1 with
    | some c => c
    | none => content1 ++ [Entry.content { key := dateKey, values := [raw_date], locale := none }]
  { header := g.header, content := content2 }

/-- Functional reading of desktop_file.find_mut(GROUP_NAME) followed by
an in-place edit of the found group (trash.rs lines 25 and 44): apply the
edit to the first group with the header, or report that no group has the
header. -/
def editFirstGroup (header : List Nat) (f : Group → Group) :
    List TopLevelEntry → Option (List TopLevelEntry)
  | [] => none
  | .group g :: rest =>
    if g.header == header then some (.group (f g) :: rest)
    else
      match editFirstGroup header f rest with
      | some rest1 => some (.group g :: rest1)
      | none => none
  | .comment c :: rest =>
    match editFirstGroup header f rest with
    | some rest1 => some (.comment c :: rest1)
    | none => none

/-- TryFrom of TrashFile for DesktopFile (trash.rs lines 20-68): format
the deletion date, edit the first Trash Info group in place when one
exists, else append a new group holding the fresh Path and DeletionDate
entries; the date-format error branch never fires in the model since
formatting is total. -/
def desktopOfTrash (t : TrashFile) : Except Error DesktopFile :=
  let raw_date := formatDate t.deletion_date
  match editFirstGroup trashHeader (editTrashGroup t.path raw_date) t.desktop_file.content with
  | some content1 => .ok { content := content1 }
  | none =>
    .ok { content := t.desktop_file.content
            ++ [TopLevelEntry.group
                  { header := trashHeader
                    content := [Entry.content { key := pathKey, values := [t.path], locale := none },
                                Entry.content { key := dateKey, values := [raw_date], locale := none }] }] }

/-- TryFrom of DesktopFile for TrashFile (trash.rs lines 70-89): fetch
the Trash Info group, its first DeletionDate entry and its first Path
entry (typed not-found errors), then index element 0 of the DeletionDate
values, parse the date, and index element 0 of the Path values.  The two
unchecked index accesses are Rust panics, modelled as the outer none. -/
def trashOfDesktop (desktop : DesktopFile) : Option (Except Error TrashFile) :=
  match desktop.get trashHeader with
  | .error e => some (.error e)
  | .ok group =>
    match group.get dateKey with
    | .error e => some (.error e)
    | .ok raw_date =>
      match group.get pathKey with
      | .error e => some (.error e)
      | .ok raw_path =>
        match raw_date.values.get? 0 with
        | none => none
        | some d0 =>
          match parseDateTime d0 with
          | none => some (.error .dateParsing)
          | some date =>
            match raw_path.values.get? 0 with
            | none => none
            | some p0 => some (.ok { desktop_file := desktop, path := p0, deletion_date := date })

/-! ## Shared helper lemmas -/

theorem length_dropWhile_le (p : Nat → Bool) (l : List Nat) :
    (l.dropWhile p).length ≤ l.length := by
  induction l with
  | nil => simp [List.dropWhile]
  | cons c rest ih =>
    by_cases h : p c
    · simp only [List.dropWhile_cons, h, if_pos]
      exact Nat.le_succ_of_le ih
    · simp [List.dropWhile_cons, h]

theorem takeWhile_append_all (p : Nat → Bool) (u f : List Nat)
    (hu : ∀ c ∈ u, p c = true) (hf : ∀ c, f.head? = some c → p c = false) :
    (u ++ f).takeWhile p = u := by
  induction u with
  | nil =>
    cases f with
    | nil => rfl
    | cons c rest => simp [List.takeWhile_cons, hf c rfl]
  | cons c rest ih =>
    have hc : p c = true := hu c (by simp)
    simp only [List.cons_append, List.takeWhile_cons, hc]
    simp [ih fun x hx => hu x (by simp [hx])]

theorem dropWhile_append_all (p : Nat → Bool) (u f : List Nat)
    (hu : ∀ c ∈ u, p c = true) (hf : ∀ c, f.head? = some c → p c = false) :
    (u ++ f).dropWhile p = f := by
  induction u with
  | nil =>
    cases f with
    | nil => rfl
    | cons c rest => simp [List.dropWhile_cons, hf c rfl]
  | cons c rest ih =>
    have hc : p c = true := hu c (by simp)
    simp only [List.cons_append, List.dropWhile_cons, hc]
    simp [ih fun x hx => hu x (by simp [hx])]

theorem utf8Valid_ascii (l : List Nat) (h : ∀ c ∈ l, c ≤ 127) : utf8Valid l = true := by
  induction l with
  | nil => rfl
  | cons c rest ih =>
    have hc : c ≤ 127 := h c (by simp)
    rw [utf8Valid.eq_def]
    simp only []
    rw [if_pos hc]
    exact ih fun x hx => h x (by simp [hx])

/-! ## Claim C8 -/

/-- C8: the inputs World;Universe;all others; and World;Universe;all others
(no trailing separator) both parse, through the value-list parser, to the
identical three-element value sequence. -/
theorem C8_value_list_trailing_separator :
    parse_value (strBytes "World;Universe;all others;") =
      .ok ([], [strBytes "World", strBytes "Universe", strBytes "all others"]) ∧
    parse_value (strBytes "World;Universe;all others") =
      .ok ([], [strBytes "World", strBytes "Universe", strBytes "all others"]) := by
  constructor
  · decide
  · decide

/-! ## Claim C9 -/

/-- C9: a Locale displays as the language, an underscore plus the
upper-cased country when present, a dot plus the encoding when present,
and an at sign plus the modifier when present; the locale en/US/new with
no encoding renders as en_US@new and the entry Hello with that locale and
value World renders as Hello[en_US@new]=World. -/
theorem C9_locale_display :
    (∀ l : Locale,
      l.display = l.lang
        ++ (Option.elim l.country [] fun c => 95 :: c.map asciiUpper)
        ++ (Option.elim l.encoding [] fun e => 46 :: e)
        ++ (Option.elim l.modifiers [] fun m => 64 :: m)) ∧
    Locale.display
        { lang := strBytes "en", encoding := none,
          country := some (strBytes "US"), modifiers := some (strBytes "new") } =
      strBytes "en_US@new" ∧
    ContentEntry.display
        { key := strBytes "Hello", values := [strBytes "World"],
          locale := some { lang := strBytes "en", encoding := none,
                           country := some (strBytes "US"),
                           modifiers := some (strBytes "new") } } =
      strBytes "Hello[en_US@new]=World" := by
  refine ⟨fun l => ?_, by decide, by decide⟩
  obtain ⟨lang, enc, cty, mods⟩ := l
  cases enc <;> cases cty <;> cases mods <;> simp [Locale.display, Option.elim]

/-! ## Claim C3 -/

/-- C3: contrary to the claim, the two-character escape sequences are not
decoded to control characters: backslash-n stays the two bytes backslash
n (and likewise r, s, t), backslash-semicolon stays backslash semicolon,
and only the double backslash decodes (to a single backslash).  Unknown
escapes and a trailing backslash do fail as claimed.  Evaluated here on
the values a backslash-n b, a backslash-semicolon b, a double-backslash
b, a backslash-x b and a trailing backslash. -/
theorem C3_escapes_kept_verbatim :
    parse_single_value (strBytes "a\\nb") = .ok ([], [97, 92, 110, 98]) ∧
    parse_single_value (strBytes "a\\;b") = .ok ([], [97, 92, 59, 98]) ∧
    parse_single_value (strBytes "a\\\\b") = .ok ([], [97, 92, 98]) ∧
    parse_single_value (strBytes "a\\xb") = .error ([120, 98], .char) ∧
    parse_single_value (strBytes "a\\") = .error ([92], .escapedTransform) := by
  refine ⟨by decide, by decide, by decide, by decide, by decide⟩

/-! ## Claim C7 -/

/-- C7 counterexample: for the input hash space space x newline, the
parser strips both spaces, storing x, not space x as the claim states. -/
theorem C7_counterexample :
    parse_text_comment_entry (strBytes "#  x\n") = .ok ([], .text (strBytes "x")) ∧
    strBytes "x" ≠ strBytes " x" := by
  refine ⟨by decide, by decide⟩

/-- C7 amended: parsing a hash-prefixed comment line stores its content
without the leading hash and without the whole run of immediately
following spaces and tabs (space0), not just a single space; rendering a
Text comment writes hash space followed by the stored text. -/
theorem C7_amended (sp s rest : List Nat)
    (hsp : ∀ c ∈ sp, isSpaceTab c = true)
    (hs : ∀ c ∈ s, isTextByte c = true)
    (hhead : ∀ c, s.head? = some c → isSpaceTab c = false)
    (hvalid : utf8Valid s = true) :
    parse_text_comment_entry (35 :: sp ++ s ++ 10 :: rest) = .ok (rest, .text s) ∧
    CommentEntry.display (.text s) = 35 :: 32 :: s := by
  refine ⟨?_, rfl⟩
  have hstep : (sp ++ s ++ 10 :: rest).dropWhile isSpaceTab = s ++ 10 :: rest := by
    rw [List.append_assoc]
    refine dropWhile_append_all _ _ _ hsp ?_
    intro c hc
    cases s with
    | nil =>
      simp at hc
      subst hc
      rfl
    | cons a as =>
      simp at hc
      subst hc
      exact hhead a rfl
  have htake : (s ++ 10 :: rest).takeWhile isTextByte = s :=
    takeWhile_append_all _ _ _ hs (by intro c hc; simp at hc; subst hc; rfl)
  have hdrop : (s ++ 10 :: rest).dropWhile isTextByte = 10 :: rest :=
    dropWhile_append_all _ _ _ hs (by intro c hc; simp at hc; subst hc; rfl)
  simp only [parse_text_comment_entry, pchar, if_pos, List.cons_append]
  simp only [hstep, htake, hdrop, utf8?, hvalid, if_pos]

/-- C7 witness: the amended statement at the counterexample input, the
comment line hash space space x newline. -/
theorem C7_witness :
    parse_text_comment_entry (35 :: [32, 32] ++ [120] ++ 10 :: []) = .ok ([], .text [120]) ∧
    CommentEntry.display (.text [120]) = 35 :: 32 :: [120] :=
  C7_amended [32, 32] [120] [] (by decide) (by decide) (by decide) (by decide)

/-! ## Claim C1 -/

/-- C1 counterexample: three grammar-violating inputs (an unterminated
bracket, a key containing a space with no leading group, and a malformed
line in the middle of a group) all yield Ok, not a parse error, and the
unparsed tail is silently dropped. -/
theorem C1_counterexample :
    DesktopFile.tryFrom (strBytes "[Unterminated") = .ok ⟨[]⟩ ∧
    DesktopFile.tryFrom (strBytes "Hello World=Yay") = .ok ⟨[]⟩ ∧
    DesktopFile.tryFrom (strBytes "[G]\nA=1\nBAD LINE\nB=2\n") =
      .ok ⟨[.group { header := strBytes "G",
                     content := [.content { key := strBytes "A",
                                            values := [strBytes "1"],
                                            locale := none }] }]⟩ := by
  refine ⟨by decide, by decide, by decide⟩

/-! ## Claim C2 counterexample -/

/-- C2 counterexample: the input open-bracket G close-bracket consists
only of directly-representable characters (no escapes, no padding, no
semicolon artifacts) and parses successfully, yet rendering the parsed
document yields the same text with a trailing newline added, so the
round trip is not the identity on it. -/
theorem C2_counterexample :
    DesktopFile.tryFrom (strBytes "[G]") = .ok ⟨[.group { header := strBytes "G", content := [] }]⟩ ∧
    DesktopFile.display ⟨[.group { header := strBytes "G", content := [] }]⟩ = strBytes "[G]\n" ∧
    strBytes "[G]\n" ≠ strBytes "[G]" := by
  refine ⟨by decide, by decide, by decide⟩

/-! ## Consumption bounds

Every parser returns a suffix of its input; the entry-level parsers
consume at least one byte on success.  These facts discharge the nom
infinite-loop guards and show the explicit fuel sufficient. -/

theorem pchar_lt {c : Nat} {i r : List Nat} {v : Nat}
    (h : pchar c i = .ok (r, v)) : r.length < i.length := by
  cases i with
  | nil => simp [pchar] at h
  | cons b rest =>
    simp only [pchar] at h
    split at h
    · injection h with h1
      injection h1 with h2 h3
      subst h2
      simp
    · simp at h

theorem line_ending_le {i r : List Nat} {v : List Nat}
    (h : line_ending i = .ok (r, v)) : r.length ≤ i.length := by
  rw [line_ending.eq_def] at h
  split at h
  · simp only [Except.ok.injEq, Prod.mk.injEq] at h
    obtain ⟨h2, h3⟩ := h
    subst h2
    simp
  · simp only [Except.ok.injEq, Prod.mk.injEq] at h
    obtain ⟨h2, h3⟩ := h
    subst h2
    simp
    omega
  · simp at h

theorem eofP_le {i r : List Nat} {v : List Nat}
    (h : eofP i = .ok (r, v)) : r.length ≤ i.length := by
  rw [eofP.eq_def] at h
  split at h
  · injection h with h1
    injection h1 with h2 h3
    subst h2
    simp
  · simp at h

theorem multispace1_lt {i r : List Nat} {v : List Nat}
    (h : multispace1 i = .ok (r, v)) : r.length < i.length := by
  rw [multispace1.eq_def] at h
  split at h
  · simp at h
  · rename_i run hrun
    injection h with h1
    injection h1 with h2 h3
    subst h2
    cases i with
    | nil => simp [List.takeWhile] at hrun
    | cons c rest =>
      by_cases hc : isMultispace c
      · simp only [List.dropWhile_cons, hc, if_pos]
        exact Nat.lt_succ_of_le (length_dropWhile_le _ _)
      · simp [List.takeWhile_cons, hc] at hrun

theorem parse_blank_comment_lt {i r : List Nat} {v : CommentEntry}
    (h : parse_blank_comment_entry i = .ok (r, v)) : r.length < i.length := by
  unfold parse_blank_comment_entry at h
  cases hm : multispace1 i with
  | error e => rw [hm] at h; exact absurd h (by simp)
  | ok p =>
    obtain ⟨rem, run⟩ := p
    rw [hm] at h
    simp only at h
    cases hu : utf8? run with
    | none => rw [hu] at h; exact absurd h (by simp)
    | some s =>
      rw [hu] at h
      simp only [Except.ok.injEq, Prod.mk.injEq] at h
      obtain ⟨h2, h3⟩ := h
      subst h2
      exact multispace1_lt hm

theorem parse_text_comment_lt {i r : List Nat} {v : CommentEntry}
    (h : parse_text_comment_entry i = .ok (r, v)) : r.length < i.length := by
  unfold parse_text_comment_entry at h
  cases hm : pchar 35 i with
  | error e => rw [hm] at h; exact absurd h (by simp)
  | ok p =>
    obtain ⟨rem, b⟩ := p
    rw [hm] at h
    simp only at h
    cases hn : pchar 10 ((rem.dropWhile isSpaceTab).dropWhile isTextByte) with
    | error e => rw [hn] at h; exact absurd h (by simp)
    | ok q =>
      obtain ⟨rem3, b1⟩ := q
      rw [hn] at h
      simp only at h
      cases hu : utf8? ((rem.dropWhile isSpaceTab).takeWhile isTextByte) with
      | none => rw [hu] at h; exact absurd h (by simp)
      | some s =>
        rw [hu] at h
        simp only [Except.ok.injEq, Prod.mk.injEq] at h
        obtain ⟨h2, h3⟩ := h
        subst h2
        have h4 := pchar_lt hn
        have h5 := length_dropWhile_le isTextByte (rem.dropWhile isSpaceTab)
        have h6 := length_dropWhile_le isSpaceTab rem
        have h7 := pchar_lt hm
        omega

theorem parse_comment_lt {i r : List Nat} {v : CommentEntry}
    (h : parse_comment_entry i = .ok (r, v)) : r.length < i.length := by
  unfold parse_comment_entry at h
  cases hm : parse_blank_comment_entry i with
  | error e =>
    rw [hm] at h
    exact parse_text_comment_lt h
  | ok p =>
    obtain ⟨rem, c⟩ := p
    rw [hm] at h
    simp only [Except.ok.injEq, Prod.mk.injEq] at h
    obtain ⟨h2, h3⟩ := h
    subst h2
    exact parse_blank_comment_lt hm

theorem esc_le_aux : ∀ (n : Nat) (i : List Nat), i.length ≤ n →
    ∀ (s : Bool) (acc r v : List Nat),
    escaped_transform_val i s acc = .ok (r, v) → r.length ≤ i.length := by
  intro n
  induction n with
  | zero =>
    intro i hi s acc r v h
    cases i with
    | nil =>
      rw [escaped_transform_val] at h
      rw [Except.ok.injEq, Prod.mk.injEq] at h
      obtain ⟨h2, h3⟩ := h
      subst h2
      exact Nat.le_refl _
    | cons c rs => simp at hi
  | succ n ih =>
    intro i hi s acc r v h
    cases i with
    | nil =>
      rw [escaped_transform_val] at h
      rw [Except.ok.injEq, Prod.mk.injEq] at h
      obtain ⟨h2, h3⟩ := h
      subst h2
      exact Nat.le_refl _
    | cons c rs =>
      rw [escaped_transform_val.eq_def] at h
      simp only at h
      by_cases hc : isNormalValByte c
      · rw [if_pos hc] at h
        have h1 := ih rs (by simp only [List.length_cons] at hi; omega) false (acc ++ [c]) r v h
        have hl : (c :: rs).length = rs.length + 1 := by simp
        omega
      · rw [if_neg hc] at h
        by_cases h92 : c = 92
        · rw [if_pos h92] at h
          cases rs with
          | nil => exact absurd h (by simp)
          | cons e rs1 =>
            simp only at h
            cases hout : escapeMap e with
            | none => rw [hout] at h; exact absurd h (by simp)
            | some out =>
              rw [hout] at h
              simp only at h
              have h1 := ih rs1 (by simp only [List.length_cons] at hi; omega) false (acc ++ out) r v h
              have hl : (c :: e :: rs1).length = rs1.length + 2 := by simp
              omega
        · rw [if_neg h92] at h
          by_cases hs : s = true
          · rw [if_pos hs] at h
            exact absurd h (by simp)
          · rw [if_neg hs] at h
            rw [Except.ok.injEq, Prod.mk.injEq] at h
            obtain ⟨h2, h3⟩ := h
            subst h2
            exact Nat.le_refl _

theorem esc_le {i : List Nat} {s : Bool} {acc r v : List Nat}
    (h : escaped_transform_val i s acc = .ok (r, v)) : r.length ≤ i.length :=
  esc_le_aux i.length i (Nat.le_refl _) s acc r v h

theorem parse_single_value_le {i r : List Nat} {v : List Nat}
    (h : parse_single_value i = .ok (r, v)) : r.length ≤ i.length := by
  unfold parse_single_value at h
  cases hm : escaped_transform_val i true [] with
  | error e => rw [hm] at h; exact absurd h (by simp)
  | ok p =>
    obtain ⟨rem, u⟩ := p
    rw [hm] at h
    simp only at h
    have hle : rem.length ≤ i.length := esc_le hm
    cases hv : valueOfBytes u with
    | none => rw [hv] at h; exact absurd h (by simp)
    | some s =>
      rw [hv] at h
      simp only at h
      cases hn : pchar 59 rem with
      | error e =>
        rw [hn] at h
        simp only [Except.ok.injEq, Prod.mk.injEq] at h
        obtain ⟨h2, h3⟩ := h
        subst h2
        exact hle
      | ok q =>
        obtain ⟨rem1, b⟩ := q
        rw [hn] at h
        simp only [Except.ok.injEq, Prod.mk.injEq] at h
        obtain ⟨h2, h3⟩ := h
        subst h2
        have := pchar_lt hn
        omega

theorem many_till_value_le {fuel : Nat} {i r : List Nat} {vs : List (List Nat)}
    (h : many_till_value fuel i = .ok (r, vs)) : r.length ≤ i.length := by
  induction fuel generalizing i r vs with
  | zero => simp [many_till_value] at h
  | succ fuel ih =>
    unfold many_till_value at h
    cases ht : (match line_ending i with
               | .ok r => .ok r
               | .error _ => eofP i : ParseResult (List Nat)) with
    | ok p =>
      obtain ⟨rem, u⟩ := p
      rw [ht] at h
      simp only [Except.ok.injEq, Prod.mk.injEq] at h
      obtain ⟨h2, h3⟩ := h
      subst h2
      cases hl : line_ending i with
      | ok q =>
        rw [hl] at ht
        simp only [Except.ok.injEq] at ht
        subst ht
        exact line_ending_le hl
      | error e =>
        rw [hl] at ht
        simp only at ht
        exact eofP_le ht
    | error e =>
      rw [ht] at h
      simp only at h
      cases hs : parse_single_value i with
      | error e1 => rw [hs] at h; exact absurd h (by simp)
      | ok p =>
        obtain ⟨rem, v⟩ := p
        rw [hs] at h
        simp only at h
        by_cases heq : rem.length = i.length
        · rw [if_pos heq] at h
          exact absurd h (by simp)
        · rw [if_neg heq] at h
          cases hm : many_till_value fuel rem with
          | error e1 => rw [hm] at h; exact absurd h (by simp)
          | ok q =>
            obtain ⟨rem1, vs1⟩ := q
            rw [hm] at h
            simp only [Except.ok.injEq, Prod.mk.injEq] at h
            obtain ⟨h2, h3⟩ := h
            subst h2
            have h4 := ih hm
            have h5 := parse_single_value_le hs
            omega

theorem parse_value_le {i r : List Nat} {vs : List (List Nat)}
    (h : parse_value i = .ok (r, vs)) : r.length ≤ i.length :=
  many_till_value_le h

theorem parse_key_le {i r : List Nat} {v : List Nat}
    (h : parse_key i = .ok (r, v)) : r.length ≤ i.length := by
  unfold parse_key at h
  cases hu : utf8? (i.takeWhile isKeyByte) with
  | none => rw [hu] at h; exact absurd h (by simp)
  | some s =>
    rw [hu] at h
    simp only [Except.ok.injEq, Prod.mk.injEq] at h
    obtain ⟨h2, h3⟩ := h
    subst h2
    exact length_dropWhile_le _ _

theorem parse_content_rest_lt {k : List Nat} {lo : Option (List Nat)}
    {i r : List Nat} {v : ContentEntry}
    (h : parse_content_rest k lo i = .ok (r, v)) : r.length < i.length := by
  unfold parse_content_rest at h
  simp only at h
  cases hm : pchar 61 (i.dropWhile isSpaceTab) with
  | error e => rw [hm] at h; exact absurd h (by simp)
  | ok p =>
    obtain ⟨r1, u⟩ := p
    rw [hm] at h
    simp only at h
    cases hv : parse_value (r1.dropWhile isSpaceTab) with
    | error e => rw [hv] at h; exact absurd h (by simp)
    | ok q =>
      obtain ⟨r3, values⟩ := q
      rw [hv] at h
      simp only [Except.ok.injEq, Prod.mk.injEq] at h
      obtain ⟨h2, h3⟩ := h
      subst h2
      have h4 := parse_value_le hv
      have h5 := length_dropWhile_le isSpaceTab r1
      have h6 := pchar_lt hm
      have h7 := length_dropWhile_le isSpaceTab i
      omega

theorem parse_locale_bracket_le {i r : List Nat} {v : List Nat}
    (h : parse_locale_bracket i = .ok (r, v)) : r.length ≤ i.length := by
  unfold parse_locale_bracket at h
  cases hm : pchar 91 i with
  | error e => rw [hm] at h; exact absurd h (by simp)
  | ok p =>
    obtain ⟨rem, b⟩ := p
    rw [hm] at h
    simp only at h
    cases hn : pchar 93 (rem.dropWhile fun c => c ≠ 91 && c ≠ 93) with
    | error e => rw [hn] at h; exact absurd h (by simp)
    | ok q =>
      obtain ⟨rem2, b1⟩ := q
      rw [hn] at h
      simp only at h
      cases hu : utf8? (rem.takeWhile fun c => c ≠ 91 && c ≠ 93) with
      | none => rw [hu] at h; exact absurd h (by simp)
      | some s =>
        rw [hu] at h
        simp only [Except.ok.injEq, Prod.mk.injEq] at h
        obtain ⟨h2, h3⟩ := h
        subst h2
        have h4 := pchar_lt hm
        have h5 := length_dropWhile_le (fun c => c ≠ 91 && c ≠ 93) rem
        have h6 := pchar_lt hn
        omega

theorem parse_content_entry_lt {i r : List Nat} {v : ContentEntry}
    (h : parse_content_entry i = .ok (r, v)) : r.length < i.length := by
  unfold parse_content_entry at h
  cases hm : parse_key i with
  | error e => rw [hm] at h; exact absurd h (by simp)
  | ok p =>
    obtain ⟨rem, key⟩ := p
    rw [hm] at h
    simp only at h
    have hkey := parse_key_le hm
    cases hl : parse_locale_bracket rem with
    | ok q =>
      obtain ⟨rem1, loc⟩ := q
      rw [hl] at h
      simp only at h
      have h4 := parse_locale_bracket_le hl
      have h5 := parse_content_rest_lt h
      omega
    | error e =>
      rw [hl] at h
      simp only at h
      have h5 := parse_content_rest_lt h
      omega

theorem parse_entry_lt {i r : List Nat} {v : Entry}
    (h : parse_entry i = .ok (r, v)) : r.length < i.length := by
  unfold parse_entry at h
  cases hm : parse_comment_entry i with
  | ok p =>
    obtain ⟨rem, c⟩ := p
    rw [hm] at h
    simp only [Except.ok.injEq, Prod.mk.injEq] at h
    obtain ⟨h2, h3⟩ := h
    subst h2
    exact parse_comment_lt hm
  | error e =>
    rw [hm] at h
    simp only at h
    cases hn : parse_content_entry i with
    | error e1 => rw [hn] at h; exact absurd h (by simp)
    | ok p =>
      obtain ⟨rem, c⟩ := p
      rw [hn] at h
      simp only [Except.ok.injEq, Prod.mk.injEq] at h
      obtain ⟨h2, h3⟩ := h
      subst h2
      exact parse_content_entry_lt hn

theorem many0F_le {α : Type} {p : List Nat → ParseResult α}
    (hp : ∀ i r v, p i = .ok (r, v) → r.length ≤ i.length)
    {fuel : Nat} {i r : List Nat} {vs : List α}
    (h : many0F p fuel i = .ok (r, vs)) : r.length ≤ i.length := by
  induction fuel generalizing i r vs with
  | zero => simp [many0F] at h
  | succ fuel ih =>
    unfold many0F at h
    cases hq : p i with
    | error e =>
      rw [hq] at h
      simp only [Except.ok.injEq, Prod.mk.injEq] at h
      obtain ⟨h2, h3⟩ := h
      subst h2
      exact Nat.le_refl _
    | ok q =>
      obtain ⟨rem, v⟩ := q
      rw [hq] at h
      simp only at h
      by_cases heq : rem.length = i.length
      · rw [if_pos heq] at h
        exact absurd h (by simp)
      · rw [if_neg heq] at h
        cases hm : many0F p fuel rem with
        | error e => rw [hm] at h; exact absurd h (by simp)
        | ok q1 =>
          obtain ⟨rem1, vs1⟩ := q1
          rw [hm] at h
          simp only [Except.ok.injEq, Prod.mk.injEq] at h
          obtain ⟨h2, h3⟩ := h
          subst h2
          have h4 := ih hm
          have h5 := hp i rem v hq
          omega

theorem parse_group_header_lt {i r : List Nat} {v : List Nat}
    (h : parse_group_header i = .ok (r, v)) : r.length < i.length := by
  unfold parse_group_header at h
  cases hm : pchar 91 i with
  | error e => rw [hm] at h; exact absurd h (by simp)
  | ok p =>
    obtain ⟨rem, b⟩ := p
    rw [hm] at h
    simp only at h
    cases hn : pchar 93 (rem.dropWhile fun c => c ≠ 91 && c ≠ 93) with
    | error e => rw [hn] at h; exact absurd h (by simp)
    | ok q =>
      obtain ⟨rem2, b1⟩ := q
      rw [hn] at h
      simp only at h
      cases hu : utf8? (rem.takeWhile fun c => c ≠ 91 && c ≠ 93) with
      | none => rw [hu] at h; exact absurd h (by simp)
      | some s =>
        rw [hu] at h
        simp only [Except.ok.injEq, Prod.mk.injEq] at h
        obtain ⟨h2, h3⟩ := h
        subst h2
        have h4 := pchar_lt hm
        have h5 := length_dropWhile_le (fun c => c ≠ 91 && c ≠ 93) rem
        have h6 := pchar_lt hn
        have h7 : (match pchar 10 rem2 with
                   | .ok (r, _) => r
                   | .error _ => rem2).length ≤ rem2.length := by
          cases hx : pchar 10 rem2 with
          | ok q1 =>
            obtain ⟨r4, b4⟩ := q1
            simp only
            exact Nat.le_of_lt (pchar_lt hx)
          | error e => simp only; exact Nat.le_refl _
        omega

theorem parse_group_lt {i r : List Nat} {v : Group}
    (h : parse_group i = .ok (r, v)) : r.length < i.length := by
  unfold parse_group at h
  cases hm : parse_group_header i with
  | error e => rw [hm] at h; exact absurd h (by simp)
  | ok p =>
    obtain ⟨rem, header⟩ := p
    rw [hm] at h
    simp only at h
    cases hn : parse_group_content rem with
    | error e => rw [hn] at h; exact absurd h (by simp)
    | ok q =>
      obtain ⟨rem1, content⟩ := q
      rw [hn] at h
      simp only [Except.ok.injEq, Prod.mk.injEq] at h
      obtain ⟨h2, h3⟩ := h
      subst h2
      have h4 : rem1.length ≤ rem.length :=
        many0F_le (fun i r v hh => Nat.le_of_lt (parse_entry_lt hh)) hn
      have h5 := parse_group_header_lt hm
      omega

theorem parse_top_level_lt {i r : List Nat} {v : TopLevelEntry}
    (h : parse_top_level_entry i = .ok (r, v)) : r.length < i.length := by
  unfold parse_top_level_entry at h
  cases hm : parse_group i with
  | ok p =>
    obtain ⟨rem, g⟩ := p
    rw [hm] at h
    simp only [Except.ok.injEq, Prod.mk.injEq] at h
    obtain ⟨h2, h3⟩ := h
    subst h2
    exact parse_group_lt hm
  | error e =>
    rw [hm] at h
    simp only at h
    cases hn : parse_comment_entry i with
    | error e1 => rw [hn] at h; exact absurd h (by simp)
    | ok p =>
      obtain ⟨rem, c⟩ := p
      rw [hn] at h
      simp only [Except.ok.injEq, Prod.mk.injEq] at h
      obtain ⟨h2, h3⟩ := h
      subst h2
      exact parse_comment_lt hn

theorem many0F_total {α : Type} {p : List Nat → ParseResult α}
    (hp : ∀ i r v, p i = .ok (r, v) → r.length < i.length)
    {fuel : Nat} (i : List Nat) (hfuel : i.length < fuel) :
    ∃ r vs, many0F p fuel i = .ok (r, vs) := by
  induction fuel generalizing i with
  | zero => omega
  | succ fuel ih =>
    unfold many0F
    cases hq : p i with
    | error e => exact ⟨i, [], rfl⟩
    | ok q =>
      obtain ⟨rem, v⟩ := q
      simp only
      have hlt := hp i rem v hq
      rw [if_neg (by omega)]
      obtain ⟨r, vs, hr⟩ := ih rem (by omega)
      rw [hr]
      exact ⟨r, v :: vs, rfl⟩


/-! ## Claim C1 amended theorem -/

/-- C1 amended: DesktopFile::try_from is total and never surfaces a parse
error: for every input byte sequence it returns Ok, keeping the top-level
entries parsed before the first failing position and silently dropping
the unconsumed remainder. -/
theorem C1_amended (input : List Nat) : ∃ d, DesktopFile.tryFrom input = .ok d := by
  obtain ⟨r, vs, hr⟩ :=
    many0F_total (fun i r v h => parse_top_level_lt h) input (Nat.lt_succ_self _)
  exact ⟨⟨vs⟩, by simp only [DesktopFile.tryFrom, hr]⟩

/-! ## First-match characterization of find? -/

theorem find?_first {α : Type} (p : α → Bool) (l : List α) (e : α) :
    l.find? p = some e ↔
      ∃ l1 l2, l = l1 ++ e :: l2 ∧ p e = true ∧ ∀ x ∈ l1, p x = false := by
  induction l with
  | nil => simp
  | cons a l ih =>
    by_cases ha : p a
    · simp only [List.find?_cons_of_pos _ ha, Option.some.injEq]
      constructor
      · intro h
        subst h
        exact ⟨[], l, rfl, ha, by simp⟩
      · rintro ⟨l1, l2, hsplit, hpe, hl1⟩
        cases l1 with
        | nil => simp at hsplit; exact hsplit.1
        | cons b l1 =>
          simp only [List.cons_append, List.cons.injEq] at hsplit
          obtain ⟨hb, _⟩ := hsplit
          subst hb
          exact absurd ha (by simp [hl1 a (by simp)])
    · simp only [List.find?_cons_of_neg _ (by simpa using ha)]
      rw [ih]
      constructor
      · rintro ⟨l1, l2, hsplit, hpe, hl1⟩
        refine ⟨a :: l1, l2, by simp [hsplit], hpe, ?_⟩
        intro x hx
        simp only [List.mem_cons] at hx
        rcases hx with rfl | hx
        · simpa using ha
        · exact hl1 x hx
      · rintro ⟨l1, l2, hsplit, hpe, hl1⟩
        cases l1 with
        | nil =>
          simp only [List.nil_append, List.cons.injEq] at hsplit
          obtain ⟨hb, _⟩ := hsplit
          subst hb
          exact absurd hpe (by simpa using ha)
        | cons b l1 =>
          simp only [List.cons_append, List.cons.injEq] at hsplit
          obtain ⟨hb, hrest⟩ := hsplit
          exact ⟨l1, l2, hrest, hpe, fun x hx => hl1 x (by simp [hx])⟩

/-! ## Claim C5 -/

/-- The locale agreement relation of the claim: the language always
agrees, and each of country, encoding, modifiers agrees whenever its
significance flag is set. -/
def LocaleMatchSpec (opts : LocaleOptions) (l : Locale) : Prop :=
  l.lang = opts.locale.lang ∧
  (opts.country = true → l.country = opts.locale.country) ∧
  (opts.encoding = true → l.encoding = opts.locale.encoding) ∧
  (opts.modifier = true → l.modifiers = opts.locale.modifiers)

/-- The entry match relation of the claim: the key agrees, and the entry
either has no locale at all or its locale agrees under the mask. -/
def EntryMatches (key : List Nat) (opts : LocaleOptions) (e : ContentEntry) : Prop :=
  e.key = key ∧ (e.locale = none ∨ ∃ l, e.locale = some l ∧ LocaleMatchSpec opts l)

theorem equals_options_iff (l : Locale) (opts : LocaleOptions) :
    l.equals_options opts = true ↔ LocaleMatchSpec opts l := by
  obtain ⟨ref, oc, oe, om⟩ := opts
  simp only [Locale.equals_options, LocaleMatchSpec]
  cases oc <;> cases oe <;> cases om <;>
    simp [Bool.and_eq_true, beq_iff_eq, and_assoc, and_comm, and_left_comm]

theorem find_with_locale_pred_iff (key : List Nat) (opts : LocaleOptions) (e : ContentEntry) :
    (e.key == key &&
      (match e.locale with
       | none => true
       | some l => l.equals_options opts)) = true ↔ EntryMatches key opts e := by
  simp only [Bool.and_eq_true, beq_iff_eq, EntryMatches]
  cases hl : e.locale with
  | none => simp
  | some l => simp [equals_options_iff]

/-- C5: Group::find_with_locale returns the first content entry, in group
order with comments skipped, whose key equals the query key and which
either has no locale at all or whose locale agrees with the reference
locale on the language and on every field the significance mask marks
(country, encoding, modifier each independently); it returns none exactly
when no content entry of the group satisfies this. -/
theorem C5_find_with_locale (g : Group) (key : List Nat) (opts : LocaleOptions) :
    (∀ e, g.find_with_locale key opts = some e ↔
      ∃ l1 l2, g.contentEntries = l1 ++ e :: l2 ∧ EntryMatches key opts e ∧
        ∀ e2 ∈ l1, ¬ EntryMatches key opts e2) ∧
    (g.find_with_locale key opts = none ↔
      ∀ e ∈ g.contentEntries, ¬ EntryMatches key opts e) := by
  constructor
  · intro e
    rw [Group.find_with_locale, find?_first]
    constructor
    · rintro ⟨l1, l2, hsplit, hpe, hl1⟩
      refine ⟨l1, l2, hsplit, (find_with_locale_pred_iff key opts e).mp hpe, ?_⟩
      intro e2 he2
      rw [← find_with_locale_pred_iff key opts e2]
      simp [hl1 e2 he2]
    · rintro ⟨l1, l2, hsplit, hpe, hl1⟩
      refine ⟨l1, l2, hsplit, (find_with_locale_pred_iff key opts e).mpr hpe, ?_⟩
      intro e2 he2
      have := hl1 e2 he2
      rw [← find_with_locale_pred_iff key opts e2] at this
      simp at this ⊢
      exact this
  · rw [Group.find_with_locale, List.find?_eq_none]
    constructor
    · intro h e he
      rw [← find_with_locale_pred_iff key opts e]
      exact h e he
    · intro h e he
      rw [find_with_locale_pred_iff key opts e]
      exact h e he

/-! ## Claim C6 -/

/-- A Trash Info group whose Path and DeletionDate keys are each
duplicated, in the interleaving of the duplicate-entry test of trash.rs. -/
def dupTrashGroup : Group :=
  ⟨strBytes "Trash Info",
    [.content ⟨strBytes "DeletionDate", [strBytes "2025-08-12T00:14:20"], none⟩,
     .content ⟨strBytes "Path", [strBytes "~/Downloads/file"], none⟩,
     .content ⟨strBytes "Path", [strBytes "/wrong/"], none⟩,
     .content ⟨strBytes "DeletionDate", [strBytes "2025-08-14T00:00:00"], none⟩]⟩

/-- C6: within a group, Group::find returns the first content entry with
the queried key in group order, comments skipped, and none exactly when
no content entry has the key; DesktopFile::find likewise returns the
first group with the queried header.  Parsing an input whose Trash Info
group repeats Path and DeletionDate preserves all four entries in their
original order, and find on that group returns the first Path entry. -/
theorem C6_duplicates_first_match :
    (∀ (g : Group) (key : List Nat) (e : ContentEntry),
      g.find key = some e ↔
        ∃ l1 l2, g.contentEntries = l1 ++ e :: l2 ∧ e.key = key ∧
          ∀ x ∈ l1, x.key ≠ key) ∧
    (∀ (g : Group) (key : List Nat),
      g.find key = none ↔ ∀ e ∈ g.contentEntries, e.key ≠ key) ∧
    (∀ (d : DesktopFile) (header : List Nat) (g : Group),
      d.find header = some g ↔
        ∃ l1 l2, d.groups = l1 ++ g :: l2 ∧ g.header = header ∧
          ∀ x ∈ l1, x.header ≠ header) ∧
    DesktopFile.tryFrom (strBytes "[Trash Info]\nDeletionDate=2025-08-12T00:14:20\nPath=~/Downloads/file\nPath=/wrong/\nDeletionDate=2025-08-14T00:00:00\n") =
      .ok ⟨[.group dupTrashGroup]⟩ ∧
    dupTrashGroup.find (strBytes "Path") =
      some ⟨strBytes "Path", [strBytes "~/Downloads/file"], none⟩ := by
  refine ⟨?_, ?_, ?_, by decide, by decide⟩
  · intro g key e
    rw [Group.find, find?_first]
    constructor
    · rintro ⟨l1, l2, hsplit, hpe, hl1⟩
      refine ⟨l1, l2, hsplit, by simpa using hpe, ?_⟩
      intro x hx
      simpa using hl1 x hx
    · rintro ⟨l1, l2, hsplit, hpe, hl1⟩
      refine ⟨l1, l2, hsplit, by simpa using hpe, ?_⟩
      intro x hx
      simpa using hl1 x hx
  · intro g key
    rw [Group.find, List.find?_eq_none]
    constructor
    · intro h e he
      simpa using h e he
    · intro h e he
      simpa using h e he
  · intro d header g
    rw [DesktopFile.find, find?_first]
    constructor
    · rintro ⟨l1, l2, hsplit, hpe, hl1⟩
      refine ⟨l1, l2, hsplit, by simpa using hpe, ?_⟩
      intro x hx
      simpa using hl1 x hx
    · rintro ⟨l1, l2, hsplit, hpe, hl1⟩
      refine ⟨l1, l2, hsplit, by simpa using hpe, ?_⟩
      intro x hx
      simpa using hl1 x hx

/-! ## Claim C10 -/

/-- A Trash Info group whose Path line carried no value (the line Path=
parses to an empty value list) while DeletionDate is well formed. -/
def emptyPathGroup : Group :=
  ⟨strBytes "Trash Info",
    [.content ⟨strBytes "Path", [], none⟩,
     .content ⟨strBytes "DeletionDate", [strBytes "2025-08-12T00:14:20"], none⟩]⟩

/-- C10: converting a DesktopFile into a TrashFile indexes element 0 of
the value lists of the DeletionDate and Path entries it finds; whenever
the first DeletionDate and first Path entries of the Trash Info group
have non-empty value lists (or are absent, which is a typed not-found
error) the conversion returns a result and never panics, while an entry
parsed from the line Path= has an empty value list and makes the index
access go out of bounds (the panic, modelled as none) instead of
producing a typed error. -/
theorem C10_index_zero_panic :
    (∀ df : DesktopFile,
      (∀ g, df.find trashHeader = some g →
        (∀ e, g.find dateKey = some e → e.values ≠ []) ∧
        (∀ e, g.find pathKey = some e → e.values ≠ [])) →
      (trashOfDesktop df).isSome) ∧
    DesktopFile.tryFrom (strBytes "[Trash Info]\nPath=\nDeletionDate=2025-08-12T00:14:20\n") =
      .ok ⟨[.group emptyPathGroup]⟩ ∧
    trashOfDesktop ⟨[.group emptyPathGroup]⟩ = none := by
  refine ⟨?_, by decide, by decide⟩
  intro df hpre
  unfold trashOfDesktop
  unfold DesktopFile.get
  cases hf : df.find trashHeader with
  | none => simp
  | some g =>
    simp only
    obtain ⟨hdate, hpath⟩ := hpre g hf
    unfold Group.get
    cases hd : g.find dateKey with
    | none => simp
    | some ed =>
      simp only
      cases hp : g.find pathKey with
      | none => simp
      | some ep =>
        simp only
        cases hv : ed.values with
        | nil => exact absurd hv (hdate ed hd)
        | cons v0 vrest =>
          simp only [List.get?_cons_zero]
          cases hdt : parseDateTime v0 with
          | none => simp
          | some date =>
            simp only
            cases hpv : ep.values with
            | nil => exact absurd hpv (hpath ep hp)
            | cons p0 prest => simp

/-- C10 witness: the totality statement applied to the well-formed trash
document of the trash.rs tests, whose precondition holds by evaluation. -/
theorem C10_witness :
    (trashOfDesktop ⟨[.group
      ⟨strBytes "Trash Info",
        [.content ⟨strBytes "Path", [strBytes "~/Downloads/file"], none⟩,
         .content ⟨strBytes "DeletionDate", [strBytes "2025-08-12T00:14:20"], none⟩]⟩]⟩).isSome :=
  C10_index_zero_panic.1
    ⟨[.group
      ⟨strBytes "Trash Info",
        [.content ⟨strBytes "Path", [strBytes "~/Downloads/file"], none⟩,
         .content ⟨strBytes "DeletionDate", [strBytes "2025-08-12T00:14:20"], none⟩]⟩]⟩
    (by decide)

/-! ## Claim C4 -/

/-- Index of the first content entry with the key, comments counted in
the positions but never matching (the selection of group.find_mut). -/
def contentKeyIdx (key : List Nat) : List Entry → Option Nat
  | [] => none
  | .content c :: rest =>
      if c.key == key then some 0 else (contentKeyIdx key rest).map (· + 1)
  | .comment _ :: rest => (contentKeyIdx key rest).map (· + 1)

/-- Index of the first group with the header, comments counted in the
positions but never matching (the selection of desktop_file.find_mut). -/
def groupHeaderIdx (header : List Nat) : List TopLevelEntry → Option Nat
  | [] => none
  | .group g :: rest =>
      if g.header == header then some 0 else (groupHeaderIdx header rest).map (· + 1)
  | .comment _ :: rest => (groupHeaderIdx header rest).map (· + 1)

/-- The Path stage of the claim: replace the value list of the first Path
entry in place (key and locale kept, all other positions unchanged), or
append a fresh Path entry at the end of the group when none exists. -/
def PathStage (path : List Nat) (es es1 : List Entry) : Prop :=
  match contentKeyIdx pathKey es with
  | some p => ∃ e, es[p]? = some (.content e) ∧ e.key = pathKey ∧
      es1 = es.set p (.content ⟨e.key, [path], e.locale⟩) ∧
      ∀ j, j ≠ p → es1[j]? = es[j]?
  | none => es1 = es ++ [.content ⟨pathKey, [path], none⟩]

/-- The DeletionDate stage of the claim, applied after the Path stage:
replace the value list of the first DeletionDate entry in place, or
append a fresh entry at the end. -/
def DateStage (raw : List Nat) (es es1 : List Entry) : Prop :=
  match contentKeyIdx dateKey es with
  | some q => ∃ e, es[q]? = some (.content e) ∧ e.key = dateKey ∧
      es1 = es.set q (.content ⟨e.key, [raw], e.locale⟩) ∧
      ∀ j, j ≠ q → es1[j]? = es[j]?
  | none => es1 = es ++ [.content ⟨dateKey, [raw], none⟩]

/-- The whole document edit of the claim: when a Trash Info group exists,
only its position changes (to the two-stage edited group) and every
other top-level item keeps its position and value; otherwise a fresh
group is appended at the end of the document. -/
def DocEditSpec (path raw : List Nat) (doc doc1 : List TopLevelEntry) : Prop :=
  match groupHeaderIdx trashHeader doc with
  | some i => ∃ g g1, doc[i]? = some (.group g) ∧
      doc1 = doc.set i (.group g1) ∧
      g1.header = g.header ∧
      (∃ c1, PathStage path g.content c1 ∧ DateStage raw c1 g1.content) ∧
      ∀ j, j ≠ i → doc1[j]? = doc[j]?
  | none => doc1 = doc ++ [.group ⟨trashHeader,
      [.content ⟨pathKey, [path], none⟩, .content ⟨dateKey, [raw], none⟩]⟩]

theorem setFirstValues_spec (key : List Nat) (vals : List (List Nat)) (es : List Entry) :
    match contentKeyIdx key es with
    | some p => ∃ e, es[p]? = some (.content e) ∧ e.key = key ∧
        setFirstValues key vals es = some (es.set p (.content ⟨e.key, vals, e.locale⟩))
    | none => setFirstValues key vals es = none := by
  induction es with
  | nil => simp [contentKeyIdx, setFirstValues]
  | cons x rest ih =>
    cases x with
    | content e =>
      by_cases hk : e.key == key
      · simp only [contentKeyIdx, hk, if_pos]
        exact ⟨e, by simp, by simpa using hk, by simp [setFirstValues, hk]⟩
      · simp only [contentKeyIdx, hk, if_neg, Bool.false_eq_true, not_false_iff]
        cases hidx : contentKeyIdx key rest with
        | none =>
          rw [hidx] at ih
          exact (by simp [setFirstValues, hk, ih] :
            setFirstValues key vals (Entry.content e :: rest) = none)
        | some p =>
          rw [hidx] at ih
          obtain ⟨e1, hget, hkey, hset⟩ := ih
          exact (⟨e1, by simpa using hget, hkey, by simp [setFirstValues, hk, hset]⟩ :
            ∃ e1, (Entry.content e :: rest)[p + 1]? = some (.content e1) ∧ e1.key = key ∧
              setFirstValues key vals (Entry.content e :: rest) =
                some ((Entry.content e :: rest).set (p + 1) (.content ⟨e1.key, vals, e1.locale⟩)))
    | comment cm =>
      simp only [contentKeyIdx]
      cases hidx : contentKeyIdx key rest with
      | none =>
        rw [hidx] at ih
        exact (by simp [setFirstValues, ih] :
          setFirstValues key vals (Entry.comment cm :: rest) = none)
      | some p =>
        rw [hidx] at ih
        obtain ⟨e1, hget, hkey, hset⟩ := ih
        exact (⟨e1, by simpa using hget, hkey, by simp [setFirstValues, hset]⟩ :
          ∃ e1, (Entry.comment cm :: rest)[p + 1]? = some (.content e1) ∧ e1.key = key ∧
            setFirstValues key vals (Entry.comment cm :: rest) =
              some ((Entry.comment cm :: rest).set (p + 1) (.content ⟨e1.key, vals, e1.locale⟩)))

theorem editFirstGroup_spec (header : List Nat) (f : Group → Group)
    (doc : List TopLevelEntry) :
    match groupHeaderIdx header doc with
    | some i => ∃ g, doc[i]? = some (.group g) ∧ g.header = header ∧
        editFirstGroup header f doc = some (doc.set i (.group (f g)))
    | none => editFirstGroup header f doc = none := by
  induction doc with
  | nil => simp [groupHeaderIdx, editFirstGroup]
  | cons x rest ih =>
    cases x with
    | group g =>
      by_cases hk : g.header == header
      · simp only [groupHeaderIdx, hk, if_pos]
        exact ⟨g, by simp, by simpa using hk, by simp [editFirstGroup, hk]⟩
      · simp only [groupHeaderIdx, hk, if_neg, Bool.false_eq_true, not_false_iff]
        cases hidx : groupHeaderIdx header rest with
        | none =>
          rw [hidx] at ih
          exact (by simp [editFirstGroup, hk, ih] :
            editFirstGroup header f (TopLevelEntry.group g :: rest) = none)
        | some i =>
          rw [hidx] at ih
          obtain ⟨g1, hget, hh, hset⟩ := ih
          exact (⟨g1, by simpa using hget, hh, by simp [editFirstGroup, hk, hset]⟩ :
            ∃ g1, (TopLevelEntry.group g :: rest)[i + 1]? = some (.group g1) ∧
              g1.header = header ∧
              editFirstGroup header f (TopLevelEntry.group g :: rest) =
                some ((TopLevelEntry.group g :: rest).set (i + 1) (.group (f g1))))
    | comment cm =>
      simp only [groupHeaderIdx]
      cases hidx : groupHeaderIdx header rest with
      | none =>
        rw [hidx] at ih
        exact (by simp [editFirstGroup, ih] :
          editFirstGroup header f (TopLevelEntry.comment cm :: rest) = none)
      | some i =>
        rw [hidx] at ih
        obtain ⟨g1, hget, hh, hset⟩ := ih
        exact (⟨g1, by simpa using hget, hh, by simp [editFirstGroup, hset]⟩ :
          ∃ g1, (TopLevelEntry.comment cm :: rest)[i + 1]? = some (.group g1) ∧
            g1.header = header ∧
            editFirstGroup header f (TopLevelEntry.comment cm :: rest) =
              some ((TopLevelEntry.comment cm :: rest).set (i + 1) (.group (f g1))))

theorem editTrashGroup_spec (path raw : List Nat) (g : Group) :
    (editTrashGroup path raw g).header = g.header ∧
    ∃ c1, PathStage path g.content c1 ∧ DateStage raw c1 (editTrashGroup path raw g).content := by
  refine ⟨rfl, ?_⟩
  have hpath := setFirstValues_spec pathKey [path] g.content
  have hcontent1 : ∃ c1, PathStage path g.content c1 ∧
      (editTrashGroup path raw g).content =
        (match setFirstValues dateKey [raw] c1 with
         | some c => c
         | none => c1 ++ [Entry.content ⟨dateKey, [raw], none⟩]) := by
    cases hidx : contentKeyIdx pathKey g.content with
    | some p =>
      rw [hidx] at hpath
      obtain ⟨e, hget, hkey, hset⟩ := hpath
      refine ⟨g.content.set p (.content ⟨e.key, [path], e.locale⟩), ?_, ?_⟩
      · rw [PathStage, hidx]
        exact ⟨e, hget, hkey, rfl, fun j hj => List.getElem?_set_ne (fun hc => hj hc.symm)⟩
      · simp [editTrashGroup, hset]
    | none =>
      rw [hidx] at hpath
      refine ⟨g.content ++ [.content ⟨pathKey, [path], none⟩], ?_, ?_⟩
      · rw [PathStage, hidx]
      · simp [editTrashGroup, hpath]
  obtain ⟨c1, hstage1, hc1⟩ := hcontent1
  refine ⟨c1, hstage1, ?_⟩
  have hdate := setFirstValues_spec dateKey [raw] c1
  cases hidx : contentKeyIdx dateKey c1 with
  | some q =>
    rw [hidx] at hdate
    obtain ⟨e, hget, hkey, hset⟩ := hdate
    rw [DateStage, hidx]
    refine ⟨e, hget, hkey, ?_, ?_⟩
    · rw [hc1, hset]
    · intro j hj
      rw [hc1, hset]
      simp only
      exact List.getElem?_set_ne (fun hc => hj hc.symm)
  | none =>
    rw [hidx] at hdate
    rw [DateStage, hidx]
    rw [hc1, hdate]

/-- C4: converting a TrashFile into a DesktopFile edits the first
Trash Info group in place when one exists: the value list of only the
first Path entry and then the first DeletionDate entry is replaced (a
fresh entry is appended at the end of the group only when the key is
absent), every other entry and comment of the group keeps its position
and value, every other top-level item keeps its position and value, and
when no such group exists a new group is appended at the end of the
document. -/
theorem C4_trash_to_desktop (t : TrashFile) :
    ∃ df1, desktopOfTrash t = .ok df1 ∧
      DocEditSpec t.path (formatDate t.deletion_date) t.desktop_file.content df1.content := by
  have hedit := editFirstGroup_spec trashHeader
    (editTrashGroup t.path (formatDate t.deletion_date)) t.desktop_file.content
  cases hidx : groupHeaderIdx trashHeader t.desktop_file.content with
  | some i =>
    rw [hidx] at hedit
    obtain ⟨g, hget, hh, hset⟩ := hedit
    refine ⟨⟨t.desktop_file.content.set i
      (.group (editTrashGroup t.path (formatDate t.deletion_date) g))⟩, ?_, ?_⟩
    · rw [desktopOfTrash]
      rw [hset]
    · rw [DocEditSpec, hidx]
      obtain ⟨hhdr, c1, h1, h2⟩ := editTrashGroup_spec t.path (formatDate t.deletion_date) g
      exact ⟨g, editTrashGroup t.path (formatDate t.deletion_date) g, hget, rfl,
        hhdr, ⟨c1, h1, h2⟩, fun j hj => List.getElem?_set_ne (fun hc => hj hc.symm)⟩
  | none =>
    rw [hidx] at hedit
    refine ⟨⟨t.desktop_file.content ++ [.group ⟨trashHeader,
      [.content ⟨pathKey, [t.path], none⟩,
       .content ⟨dateKey, [formatDate t.deletion_date], none⟩]⟩]⟩, ?_, ?_⟩
    · rw [desktopOfTrash]
      rw [hedit]
    · rw [DocEditSpec, hidx]

/-! ## Claim C2: canonical layout

The round-trip class: documents whose rendering parses back to the same
document.  Every condition is checkable (a Bool), so membership of a
concrete document is decided by evaluation. -/

/-- A value byte that needs no escaping: ASCII and none of backslash,
semicolon, line feed. -/
def allowedValByte (c : Nat) : Bool := c ≤ 127 && c ≠ 92 && c ≠ 59 && c ≠ 10

/-- A canonical stored value: non-empty, directly-representable bytes,
not starting with whitespace, and fixed by str::trim. -/
def goodValue : List Nat → Bool
  | [] => false
  | c :: v1 =>
      (c :: v1).all allowedValByte && !asciiWs c && (trimBytes (c :: v1) == c :: v1)

/-- A key byte of the canonical class: ASCII alphanumeric or dash. -/
def goodKeyByte (c : Nat) : Bool :=
  (48 ≤ c && c ≤ 57) || (65 ≤ c && c ≤ 90) || (97 ≤ c && c ≤ 122) || c = 45

/-- A canonical key: non-empty, ASCII alphanumerics and dashes. -/
def goodKey (k : List Nat) : Bool := !k.isEmpty && k.all goodKeyByte

/-- A canonical group header: ASCII without brackets, line feeds or
carriage returns. -/
def goodHeader (h : List Nat) : Bool :=
  h.all fun c => c ≤ 127 && c ≠ 91 && c ≠ 93 && c ≠ 10 && c ≠ 13

/-- A canonical text-comment body: ASCII without line feeds, not starting
with a space or tab (which space0 would strip). -/
def goodText (s : List Nat) : Bool :=
  (s.all fun c => c ≤ 127 && c ≠ 10) &&
    (match s with
     | [] => true
     | c :: _ => !(c = 32 || c = 9))

/-- A canonical blank run: non-empty whitespace. -/
def goodBlank (b : List Nat) : Bool := !b.isEmpty && b.all isMultispace

/-- A canonical entry: canonical key, no locale, canonical values; or a
canonical comment. -/
def goodEntry : Entry → Bool
  | .content e => goodKey e.key && e.locale.isNone && e.values.all goodValue
  | .comment (.text s) => goodText s
  | .comment (.blank b) => goodBlank b

/-- No two adjacent blanks (parsing would merge them into one run). -/
def noAdjBlank (blank : α → Bool) : List α → Bool
  | [] => true
  | [_] => true
  | x :: y :: rest => !(blank x && blank y) && noAdjBlank blank (y :: rest)

/-- Condition on the content of the last group of the document: its last
entry must not be a text comment (whose rendering carries no final line
feed to parse). -/
def lastEntryOkLast (es : List Entry) : Bool :=
  match es.getLast? with
  | some (.comment (.text _)) => false
  | _ => true

/-- Condition on the content of a group followed by another item: the
content is non-empty and does not end in a blank (the separating line
feed would be merged into the blank on reparse). -/
def lastEntryOkMid (es : List Entry) : Bool :=
  match es.getLast? with
  | some e => !e.is_blank
  | none => false

/-- A canonical group in last position. -/
def goodGroupLast (g : Group) : Bool :=
  goodHeader g.header && g.content.all goodEntry &&
    noAdjBlank Entry.is_blank g.content && lastEntryOkLast g.content

/-- A canonical group followed by further top-level items. -/
def goodGroupMid (g : Group) : Bool :=
  goodHeader g.header && g.content.all goodEntry &&
    noAdjBlank Entry.is_blank g.content && lastEntryOkMid g.content

/-- The group section of a canonical document: groups only (top-level
comments after a group would be re-parsed into the group). -/
def allGroupsGood : List TopLevelEntry → Bool
  | [] => true
  | [.group g] => goodGroupLast g
  | .group g :: rest => goodGroupMid g && allGroupsGood rest
  | .comment _ :: _ => false

/-- A canonical document: comments first (no text comment last, no two
adjacent blanks), then groups. -/
def goodTops : List TopLevelEntry → Bool
  | [] => true
  | [.comment (.text _)] => false
  | [.comment (.blank b)] => goodBlank b
  | .comment (.text s) :: rest => goodText s && goodTops rest
  | .comment (.blank b) :: rest =>
      goodBlank b &&
        (match rest with
         | .comment (.blank _) :: _ => false
         | _ => true) &&
        goodTops rest
  | .group g :: rest => allGroupsGood (.group g :: rest)

/-- The canonical-layout class of documents. -/
def GoodDoc (d : DesktopFile) : Bool := goodTops d.content

/-! ## Claim C2: value-level parser lemmas -/

theorem allowed_isNormal {c : Nat} (h : allowedValByte c = true) :
    isNormalValByte c = true := by
  simp only [allowedValByte, Bool.and_eq_true, decide_eq_true_eq] at h
  simp only [isNormalValByte, Bool.not_eq_true', Bool.or_eq_false_iff,
    decide_eq_false_iff_not]
  exact ⟨⟨h.1.1.2, h.1.2⟩, h.2⟩

theorem esc_good (v : List Nat) (hv : v.all allowedValByte = true) :
    ∀ (f acc : List Nat) (s : Bool),
    (f = [] ∨ (∃ f1, f = 59 :: f1) ∨ (∃ f1, f = 10 :: f1)) →
    (v ≠ [] ∨ s = false) →
    escaped_transform_val (v ++ f) s acc = .ok (f, acc ++ v) := by
  induction v with
  | nil =>
    intro f acc s hstop hne
    have hs : s = false := by
      rcases hne with hne | hne
      · exact absurd rfl hne
      · exact hne
    subst hs
    rcases hstop with rfl | ⟨f1, rfl⟩ | ⟨f1, rfl⟩
    · simp [escaped_transform_val]
    · rw [List.nil_append, escaped_transform_val.eq_def]
      simp only
      rw [if_neg (by decide), if_neg (by decide), if_neg (by simp)]
      simp
    · rw [List.nil_append, escaped_transform_val.eq_def]
      simp only
      rw [if_neg (by decide), if_neg (by decide), if_neg (by simp)]
      simp
  | cons c v1 ih =>
    intro f acc s hstop hne
    simp only [List.all_cons, Bool.and_eq_true] at hv
    rw [List.cons_append, escaped_transform_val.eq_def]
    simp only
    rw [if_pos (allowed_isNormal hv.1)]
    rw [ih hv.2 f (acc ++ [c]) false hstop (Or.inr rfl)]
    simp

theorem goodValue_trim {v : List Nat} (h : goodValue v = true) : trimBytes v = v := by
  cases v with
  | nil => simp [goodValue] at h
  | cons c v1 =>
    simp only [goodValue, Bool.and_eq_true, beq_iff_eq] at h
    exact h.2

theorem goodValue_all {v : List Nat} (h : goodValue v = true) :
    v.all allowedValByte = true := by
  cases v with
  | nil => simp [goodValue] at h
  | cons c v1 =>
    simp only [goodValue, Bool.and_eq_true] at h
    exact h.1.1

theorem goodValue_ne_nil {v : List Nat} (h : goodValue v = true) : v ≠ [] := by
  cases v with
  | nil => simp [goodValue] at h
  | cons c v1 => simp

theorem goodValue_head_not_ws {v : List Nat} (h : goodValue v = true) :
    ∀ c, v.head? = some c → asciiWs c = false := by
  cases v with
  | nil => simp [goodValue] at h
  | cons c v1 =>
    simp only [goodValue, Bool.and_eq_true, Bool.not_eq_true'] at h
    intro x hx
    simp only [List.head?_cons, Option.some.injEq] at hx
    subst hx
    exact h.1.2

theorem goodValue_utf8 {v : List Nat} (h : goodValue v = true) : utf8Valid v = true := by
  refine utf8Valid_ascii v ?_
  intro c hc
  have := goodValue_all h
  rw [List.all_eq_true] at this
  have h2 := this c hc
  simp only [allowedValByte, Bool.and_eq_true, decide_eq_true_eq] at h2
  exact h2.1.1.1

theorem valueOfBytes_good {v : List Nat} (h : goodValue v = true) :
    valueOfBytes v = some v := by
  rw [valueOfBytes, if_pos (goodValue_utf8 h), goodValue_trim h]

theorem psv_semi {v f1 : List Nat} (h : goodValue v = true) :
    parse_single_value (v ++ 59 :: f1) = .ok (f1, v) := by
  rw [parse_single_value]
  rw [esc_good v (goodValue_all h) (59 :: f1) [] true
    (Or.inr (Or.inl ⟨f1, rfl⟩)) (Or.inl (goodValue_ne_nil h))]
  simp only [List.nil_append, valueOfBytes_good h]
  simp [pchar]

theorem psv_nl {v f1 : List Nat} (h : goodValue v = true) :
    parse_single_value (v ++ 10 :: f1) = .ok (10 :: f1, v) := by
  rw [parse_single_value]
  rw [esc_good v (goodValue_all h) (10 :: f1) [] true
    (Or.inr (Or.inr ⟨f1, rfl⟩)) (Or.inl (goodValue_ne_nil h))]
  simp only [List.nil_append, valueOfBytes_good h]
  simp [pchar]

theorem psv_end {v : List Nat} (h : goodValue v = true) :
    parse_single_value v = .ok ([], v) := by
  rw [parse_single_value]
  have h2 := esc_good v (goodValue_all h) [] [] true (Or.inl rfl) (Or.inl (goodValue_ne_nil h))
  rw [List.append_nil] at h2
  rw [h2]
  simp only [List.nil_append, valueOfBytes_good h]
  simp [pchar]

/-! ## Claim C2: line-level parser lemmas -/

theorem head?_append_ne_nil {v x : List Nat} (h : v ≠ []) : (v ++ x).head? = v.head? := by
  cases v with
  | nil => exact absurd rfl h
  | cons c v1 => rfl

theorem dropWhile_eq_self_of_head (p : Nat → Bool) {l : List Nat}
    (h : ∀ c, l.head? = some c → p c = false) : l.dropWhile p = l := by
  cases l with
  | nil => rfl
  | cons c rest => simp [List.dropWhile_cons, h c rfl]

theorem goodValue_head_ne {v : List Nat} (h : goodValue v = true) :
    ∀ c, v.head? = some c → c ≠ 10 ∧ c ≠ 13 ∧ isSpaceTab c = false := by
  intro c hc
  have hw := goodValue_head_not_ws h c hc
  simp [asciiWs] at hw
  simp [isSpaceTab]
  omega

theorem term_fail {c : Nat} {r : List Nat} (h10 : c ≠ 10) (h13 : c ≠ 13) :
    (match line_ending (c :: r) with
     | .ok q => .ok q
     | .error _ => eofP (c :: r) : ParseResult (List Nat)) = .error (c :: r, .eofErr) := by
  have hle : line_ending (c :: r) = .error (c :: r, .crlf) := by
    rw [line_ending.eq_def]
    split <;> simp_all
  rw [hle]
  rfl

theorem pv_core_nl : ∀ (vs : List (List Nat)) (fuel : Nat) (rest : List Nat),
    vs.all goodValue = true → (joinSemi vs).length < fuel →
    many_till_value fuel (joinSemi vs ++ 10 :: rest) = .ok (rest, vs) := by
  intro vs
  induction vs with
  | nil =>
    intro fuel rest _ hfuel
    cases fuel with
    | zero => omega
    | succ f => simp [many_till_value, joinSemi, line_ending]
  | cons v vs1 ih =>
    intro fuel rest hall hfuel
    simp only [List.all_cons, Bool.and_eq_true] at hall
    obtain ⟨hv, hvs1⟩ := hall
    obtain ⟨c, v1, rfl⟩ : ∃ c v1, v = c :: v1 := by
      cases v with
      | nil => exact absurd rfl (goodValue_ne_nil hv)
      | cons c v1 => exact ⟨c, v1, rfl⟩
    have hhd := goodValue_head_ne hv c rfl
    cases fuel with
    | zero => omega
    | succ f =>
      cases vs1 with
      | nil =>
        rw [show joinSemi [c :: v1] = c :: v1 from rfl] at hfuel ⊢
        rw [many_till_value]
        rw [show (c :: v1) ++ 10 :: rest = c :: (v1 ++ 10 :: rest) from rfl]
        rw [term_fail hhd.1 hhd.2.1]
        simp only
        rw [show c :: (v1 ++ 10 :: rest) = (c :: v1) ++ 10 :: rest from rfl]
        rw [psv_nl hv]
        simp only
        rw [if_neg (by simp only [List.length_cons, List.length_append]; omega)]
        have hrec := ih f rest (by simp) (by simp only [joinSemi, List.length_nil]; simp only [List.length_cons] at hfuel; omega)
        rw [show joinSemi [] ++ 10 :: rest = 10 :: rest from rfl] at hrec
        rw [hrec]
      | cons v2 vs2 =>
        rw [show joinSemi ((c :: v1) :: v2 :: vs2) =
          (c :: v1) ++ 59 :: joinSemi (v2 :: vs2) from rfl] at hfuel ⊢
        rw [show ((c :: v1) ++ 59 :: joinSemi (v2 :: vs2)) ++ 10 :: rest =
          c :: (v1 ++ 59 :: (joinSemi (v2 :: vs2) ++ 10 :: rest)) from by simp]
        rw [many_till_value]
        rw [term_fail hhd.1 hhd.2.1]
        simp only
        rw [show c :: (v1 ++ 59 :: (joinSemi (v2 :: vs2) ++ 10 :: rest)) =
          (c :: v1) ++ 59 :: (joinSemi (v2 :: vs2) ++ 10 :: rest) from rfl]
        rw [psv_semi hv]
        simp only
        rw [if_neg (by simp only [List.length_cons, List.length_append]; omega)]
        have hb : (joinSemi (v2 :: vs2)).length < f := by
          simp only [List.length_cons, List.length_append] at hfuel
          omega
        rw [ih f rest hvs1 hb]

theorem pv_core_end : ∀ (vs : List (List Nat)) (fuel : Nat),
    vs.all goodValue = true → (joinSemi vs).length < fuel →
    many_till_value fuel (joinSemi vs) = .ok ([], vs) := by
  intro vs
  induction vs with
  | nil =>
    intro fuel _ hfuel
    cases fuel with
    | zero => omega
    | succ f => simp [many_till_value, joinSemi, line_ending, eofP]
  | cons v vs1 ih =>
    intro fuel hall hfuel
    simp only [List.all_cons, Bool.and_eq_true] at hall
    obtain ⟨hv, hvs1⟩ := hall
    obtain ⟨c, v1, rfl⟩ : ∃ c v1, v = c :: v1 := by
      cases v with
      | nil => exact absurd rfl (goodValue_ne_nil hv)
      | cons c v1 => exact ⟨c, v1, rfl⟩
    have hhd := goodValue_head_ne hv c rfl
    cases fuel with
    | zero => omega
    | succ f =>
      cases vs1 with
      | nil =>
        rw [show joinSemi [c :: v1] = c :: v1 from rfl] at hfuel ⊢
        rw [many_till_value]
        rw [term_fail hhd.1 hhd.2.1]
        simp only
        rw [psv_end hv]
        simp only
        rw [if_neg (by simp)]
        have hrec : many_till_value f [] = .ok ([], []) := by
          cases f with
          | zero => simp at hfuel
          | succ f1 => simp [many_till_value, line_ending, eofP]
        rw [hrec]
      | cons v2 vs2 =>
        rw [show joinSemi ((c :: v1) :: v2 :: vs2) =
          (c :: v1) ++ 59 :: joinSemi (v2 :: vs2) from rfl] at hfuel ⊢
        rw [show (c :: v1) ++ 59 :: joinSemi (v2 :: vs2) =
          c :: (v1 ++ 59 :: joinSemi (v2 :: vs2)) from rfl] at hfuel ⊢
        rw [many_till_value]
        rw [term_fail hhd.1 hhd.2.1]
        simp only
        rw [show c :: (v1 ++ 59 :: joinSemi (v2 :: vs2)) =
          (c :: v1) ++ 59 :: joinSemi (v2 :: vs2) from rfl]
        rw [psv_semi hv]
        simp only
        rw [if_neg (by simp only [List.length_cons, List.length_append]; omega)]
        have hlen : (joinSemi (v2 :: vs2)).length < f := by
          simp only [List.length_cons, List.length_append] at hfuel
          omega
        rw [ih f hvs1 hlen]

theorem pv_nl (vs : List (List Nat)) (rest : List Nat) (h : vs.all goodValue = true) :
    parse_value (joinSemi vs ++ 10 :: rest) = .ok (rest, vs) := by
  rw [parse_value]
  exact pv_core_nl vs _ rest h (by simp only [List.length_cons, List.length_append]; omega)

theorem pv_end (vs : List (List Nat)) (h : vs.all goodValue = true) :
    parse_value (joinSemi vs) = .ok ([], vs) := by
  rw [parse_value]
  exact pv_core_end vs _ h (by omega)

/-! ## Claim C2: entry-level parser lemmas -/

theorem goodKeyByte_isKey {c : Nat} (h : goodKeyByte c = true) : isKeyByte c = true := by
  simp only [goodKeyByte, Bool.or_eq_true, Bool.and_eq_true, decide_eq_true_eq] at h
  simp only [isKeyByte, Bool.or_eq_true, Bool.and_eq_true, decide_eq_true_eq]
  omega

theorem goodKeyByte_ascii {c : Nat} (h : goodKeyByte c = true) : c ≤ 127 := by
  simp only [goodKeyByte, Bool.or_eq_true, Bool.and_eq_true, decide_eq_true_eq] at h
  omega

theorem goodKeyByte_sep {c : Nat} (h : goodKeyByte c = true) :
    isMultispace c = false ∧ c ≠ 35 ∧ c ≠ 91 := by
  simp only [goodKeyByte, Bool.or_eq_true, Bool.and_eq_true, decide_eq_true_eq] at h
  simp only [isMultispace, Bool.or_eq_false_iff, decide_eq_false_iff_not]
  omega

theorem goodKey_ne_nil {k : List Nat} (h : goodKey k = true) : k ≠ [] := by
  cases k with
  | nil => simp [goodKey] at h
  | cons a l => simp

theorem goodKey_all {k : List Nat} (h : goodKey k = true) : k.all goodKeyByte = true := by
  simp only [goodKey, Bool.and_eq_true] at h
  exact h.2

theorem parse_key_good {k f : List Nat} (hk : goodKey k = true)
    (hf : ∀ c, f.head? = some c → isKeyByte c = false) :
    parse_key (k ++ f) = .ok (f, k) := by
  have hall := goodKey_all hk
  rw [List.all_eq_true] at hall
  have htake : (k ++ f).takeWhile isKeyByte = k :=
    takeWhile_append_all _ _ _ (fun c hc => goodKeyByte_isKey (hall c hc)) hf
  have hdrop : (k ++ f).dropWhile isKeyByte = f :=
    dropWhile_append_all _ _ _ (fun c hc => goodKeyByte_isKey (hall c hc)) hf
  have hvalid : utf8Valid k = true :=
    utf8Valid_ascii k fun c hc => goodKeyByte_ascii (hall c hc)
  unfold parse_key
  rw [htake, hdrop, utf8?, if_pos hvalid]

theorem dropSt_joinSemi_nl {vs : List (List Nat)} {rest : List Nat}
    (hvs : vs.all goodValue = true) :
    (joinSemi vs ++ 10 :: rest).dropWhile isSpaceTab = joinSemi vs ++ 10 :: rest := by
  refine dropWhile_eq_self_of_head _ ?_
  intro c hc
  cases vs with
  | nil =>
    simp only [joinSemi, List.nil_append, List.head?_cons, Option.some.injEq] at hc
    subst hc
    rfl
  | cons v vs1 =>
    simp only [List.all_cons, Bool.and_eq_true] at hvs
    have hne := goodValue_ne_nil hvs.1
    rw [show joinSemi (v :: vs1) ++ 10 :: rest =
      v ++ ((match vs1 with
             | [] => [] | _ :: _ => 59 :: joinSemi vs1) ++ 10 :: rest) from by
        cases vs1 <;> simp [joinSemi]] at hc
    rw [head?_append_ne_nil hne] at hc
    exact (goodValue_head_ne hvs.1 c hc).2.2

theorem dropSt_joinSemi_end {vs : List (List Nat)} (hvs : vs.all goodValue = true) :
    (joinSemi vs).dropWhile isSpaceTab = joinSemi vs := by
  refine dropWhile_eq_self_of_head _ ?_
  intro c hc
  cases vs with
  | nil => simp [joinSemi] at hc
  | cons v vs1 =>
    simp only [List.all_cons, Bool.and_eq_true] at hvs
    have hne := goodValue_ne_nil hvs.1
    rw [show joinSemi (v :: vs1) =
      v ++ (match vs1 with
            | [] => [] | _ :: _ => 59 :: joinSemi vs1) from by
        cases vs1 <;> simp [joinSemi]] at hc
    rw [head?_append_ne_nil hne] at hc
    exact (goodValue_head_ne hvs.1 c hc).2.2

theorem pcr_mid {k : List Nat} {vs : List (List Nat)} {rest : List Nat}
    (hvs : vs.all goodValue = true) :
    parse_content_rest k none (61 :: (joinSemi vs ++ 10 :: rest)) =
      .ok (rest, ⟨k, vs, none⟩) := by
  unfold parse_content_rest
  simp only
  rw [show (61 :: (joinSemi vs ++ 10 :: rest)).dropWhile isSpaceTab =
    61 :: (joinSemi vs ++ 10 :: rest) from by simp [List.dropWhile_cons, isSpaceTab]]
  rw [show pchar 61 (61 :: (joinSemi vs ++ 10 :: rest)) =
    .ok (joinSemi vs ++ 10 :: rest, 61) from by simp [pchar]]
  simp only
  rw [dropSt_joinSemi_nl hvs]
  rw [pv_nl vs rest hvs]
  rfl

theorem pcr_end {k : List Nat} {vs : List (List Nat)}
    (hvs : vs.all goodValue = true) :
    parse_content_rest k none (61 :: joinSemi vs) = .ok ([], ⟨k, vs, none⟩) := by
  unfold parse_content_rest
  simp only
  rw [show (61 :: joinSemi vs).dropWhile isSpaceTab =
    61 :: joinSemi vs from by simp [List.dropWhile_cons, isSpaceTab]]
  rw [show pchar 61 (61 :: joinSemi vs) = .ok (joinSemi vs, 61) from by simp [pchar]]
  simp only
  rw [dropSt_joinSemi_end hvs]
  rw [pv_end vs hvs]
  rfl

theorem pce_mid {k : List Nat} {vs : List (List Nat)} {rest : List Nat}
    (hk : goodKey k = true) (hvs : vs.all goodValue = true) :
    parse_content_entry (k ++ 61 :: (joinSemi vs ++ 10 :: rest)) =
      .ok (rest, ⟨k, vs, none⟩) := by
  unfold parse_content_entry
  rw [parse_key_good hk (by intro c hc; simp at hc; subst hc; rfl)]
  simp only
  rw [show parse_locale_bracket (61 :: (joinSemi vs ++ 10 :: rest)) =
    .error (61 :: (joinSemi vs ++ 10 :: rest), .char) from by
      simp [parse_locale_bracket, pchar]]
  exact pcr_mid hvs

theorem pce_end {k : List Nat} {vs : List (List Nat)}
    (hk : goodKey k = true) (hvs : vs.all goodValue = true) :
    parse_content_entry (k ++ 61 :: joinSemi vs) = .ok ([], ⟨k, vs, none⟩) := by
  unfold parse_content_entry
  rw [parse_key_good hk (by intro c hc; simp at hc; subst hc; rfl)]
  simp only
  rw [show parse_locale_bracket (61 :: joinSemi vs) =
    .error (61 :: joinSemi vs, .char) from by simp [parse_locale_bracket, pchar]]
  exact pcr_end hvs

theorem goodBlank_ne_nil {b : List Nat} (h : goodBlank b = true) : b ≠ [] := by
  cases b with
  | nil => simp [goodBlank] at h
  | cons a l => simp

theorem goodBlank_all {b : List Nat} (h : goodBlank b = true) : b.all isMultispace = true := by
  simp only [goodBlank, Bool.and_eq_true] at h
  exact h.2

theorem blank_comment_good {b rest : List Nat} (hb : goodBlank b = true)
    (hrest : ∀ c, rest.head? = some c → isMultispace c = false) :
    parse_comment_entry (b ++ rest) = .ok (rest, .blank b) := by
  have hall := goodBlank_all hb
  rw [List.all_eq_true] at hall
  have htake : (b ++ rest).takeWhile isMultispace = b :=
    takeWhile_append_all _ _ _ hall hrest
  have hdrop : (b ++ rest).dropWhile isMultispace = rest :=
    dropWhile_append_all _ _ _ hall hrest
  have hvalid : utf8Valid b = true := by
    refine utf8Valid_ascii b fun c hc => ?_
    have := hall c hc
    simp only [isMultispace, Bool.or_eq_true, decide_eq_true_eq] at this
    omega
  unfold parse_comment_entry parse_blank_comment_entry multispace1
  rw [htake, hdrop]
  cases b with
  | nil => exact absurd rfl (goodBlank_ne_nil hb)
  | cons c b1 =>
    simp only
    rw [utf8?, if_pos hvalid]

theorem goodText_all {s : List Nat} (h : goodText s = true) : s.all isTextByte = true := by
  simp only [goodText, Bool.and_eq_true] at h
  have := h.1
  rw [List.all_eq_true] at this ⊢
  intro c hc
  have h2 := this c hc
  simp only [Bool.and_eq_true, decide_eq_true_eq] at h2
  simp only [isTextByte, Bool.and_eq_true, decide_eq_true_eq]
  exact h2

theorem text_comment_good {s rest : List Nat} (hs : goodText s = true) :
    parse_comment_entry ((35 :: 32 :: s) ++ 10 :: rest) = .ok (rest, .text s) := by
  have hall := goodText_all hs
  rw [List.all_eq_true] at hall
  unfold parse_comment_entry
  rw [show parse_blank_comment_entry ((35 :: 32 :: s) ++ 10 :: rest) =
    .error ((35 :: 32 :: s) ++ 10 :: rest, .multispace) from by
      unfold parse_blank_comment_entry multispace1
      rw [show ((35 :: 32 :: s) ++ 10 :: rest).takeWhile isMultispace = [] from by
        simp [List.takeWhile_cons, isMultispace]]]
  unfold parse_text_comment_entry
  rw [show pchar 35 ((35 :: 32 :: s) ++ 10 :: rest) =
    .ok (32 :: (s ++ 10 :: rest), 35) from by simp [pchar]]
  simp only
  have hdropst : (32 :: (s ++ 10 :: rest)).dropWhile isSpaceTab = s ++ 10 :: rest := by
    rw [show (32 : Nat) :: (s ++ 10 :: rest) = [32] ++ (s ++ 10 :: rest) from rfl]
    refine dropWhile_append_all _ _ _ (by simp [isSpaceTab]) ?_
    intro c hc
    cases s with
    | nil =>
      simp at hc
      subst hc
      rfl
    | cons a s1 =>
      simp only [List.cons_append, List.head?_cons, Option.some.injEq] at hc
      subst hc
      simp only [goodText, Bool.and_eq_true, Bool.not_eq_true'] at hs
      simpa [isSpaceTab] using hs.2
  rw [hdropst]
  have htake : (s ++ 10 :: rest).takeWhile isTextByte = s :=
    takeWhile_append_all _ _ _ hall (by intro c hc; simp at hc; subst hc; rfl)
  have hdrop : (s ++ 10 :: rest).dropWhile isTextByte = 10 :: rest :=
    dropWhile_append_all _ _ _ hall (by intro c hc; simp at hc; subst hc; rfl)
  rw [htake, hdrop]
  rw [show pchar 10 (10 :: rest) = .ok (rest, 10) from by simp [pchar]]
  simp only
  have hvalid : utf8Valid s = true := by
    refine utf8Valid_ascii s fun c hc => ?_
    have := hall c hc
    simp only [isTextByte, Bool.and_eq_true, decide_eq_true_eq] at this
    exact this.1
  rw [utf8?, if_pos hvalid]

theorem comment_fail_head {c : Nat} {X : List Nat}
    (hms : isMultispace c = false) (h35 : c ≠ 35) :
    parse_comment_entry (c :: X) = .error (c :: X, .char) := by
  unfold parse_comment_entry
  rw [show parse_blank_comment_entry (c :: X) = .error (c :: X, .multispace) from by
    unfold parse_blank_comment_entry multispace1
    rw [show (c :: X).takeWhile isMultispace = [] from by simp [List.takeWhile_cons, hms]]]
  unfold parse_text_comment_entry
  rw [show pchar 35 (c :: X) = .error (c :: X, .char) from by simp [pchar, h35]]

theorem parse_entry_nil : parse_entry [] = .error ([], .char) := by decide

theorem parse_entry_group_start {h2 W : List Nat} (hh2 : goodHeader h2 = true) :
    parse_entry (91 :: (h2 ++ 93 :: 10 :: W)) = .error (10 :: W, .char) := by
  unfold parse_entry
  rw [comment_fail_head (by decide) (by decide)]
  unfold parse_content_entry
  rw [show parse_key (91 :: (h2 ++ 93 :: 10 :: W)) =
    .ok (91 :: (h2 ++ 93 :: 10 :: W), []) from by
      unfold parse_key
      rw [show (91 :: (h2 ++ 93 :: 10 :: W)).takeWhile isKeyByte = [] from by
        simp [List.takeWhile_cons, isKeyByte]]
      rw [show (91 :: (h2 ++ 93 :: 10 :: W)).dropWhile isKeyByte =
        91 :: (h2 ++ 93 :: 10 :: W) from by
        simp [List.dropWhile_cons, isKeyByte]]
      rfl]
  simp only
  have hh2all : ∀ c ∈ h2, (fun c => c ≠ 91 && c ≠ 93 : Nat → Bool) c = true := by
    simp only [goodHeader, List.all_eq_true] at hh2
    intro c hc
    have := hh2 c hc
    simp only [Bool.and_eq_true, decide_eq_true_eq] at this ⊢
    exact ⟨this.1.1.1.2, this.1.1.2⟩
  rw [show parse_locale_bracket (91 :: (h2 ++ 93 :: 10 :: W)) =
    .ok (10 :: W, h2) from by
      unfold parse_locale_bracket
      rw [show pchar 91 (91 :: (h2 ++ 93 :: 10 :: W)) =
        .ok (h2 ++ 93 :: 10 :: W, 91) from by simp [pchar]]
      simp only
      rw [takeWhile_append_all _ _ _ hh2all (by intro c hc; simp at hc; subst hc; rfl)]
      rw [dropWhile_append_all _ _ _ hh2all (by intro c hc; simp at hc; subst hc; rfl)]
      rw [show pchar 93 ((93 : Nat) :: 10 :: W) = .ok (10 :: W, 93) from by simp [pchar]]
      simp only
      have hvalid : utf8Valid h2 = true := by
        refine utf8Valid_ascii h2 fun c hc => ?_
        simp only [goodHeader, List.all_eq_true] at hh2
        have := hh2 c hc
        simp only [Bool.and_eq_true, decide_eq_true_eq] at this
        exact this.1.1.1.1
      rw [utf8?, if_pos hvalid]]
  unfold parse_content_rest
  simp only
  rw [show ((10 : Nat) :: W).dropWhile isSpaceTab = 10 :: W from by
    simp [List.dropWhile_cons, isSpaceTab]]
  rw [show pchar 61 ((10 : Nat) :: W) = .error (10 :: W, .char) from by simp [pchar]]

theorem parse_entry_content_mid {k : List Nat} {vs : List (List Nat)} {rest : List Nat}
    (hk : goodKey k = true) (hvs : vs.all goodValue = true) :
    parse_entry (k ++ 61 :: (joinSemi vs ++ 10 :: rest)) =
      .ok (rest, .content ⟨k, vs, none⟩) := by
  obtain ⟨c, k1, rfl⟩ : ∃ c k1, k = c :: k1 := by
    cases k with
    | nil => exact absurd rfl (goodKey_ne_nil hk)
    | cons c k1 => exact ⟨c, k1, rfl⟩
  have hc : goodKeyByte c = true := by
    have := goodKey_all hk
    rw [List.all_eq_true] at this
    exact this c (by simp)
  unfold parse_entry
  rw [show (c :: k1) ++ 61 :: (joinSemi vs ++ 10 :: rest) =
    c :: (k1 ++ 61 :: (joinSemi vs ++ 10 :: rest)) from rfl]
  rw [comment_fail_head (goodKeyByte_sep hc).1 (goodKeyByte_sep hc).2.1]
  rw [show c :: (k1 ++ 61 :: (joinSemi vs ++ 10 :: rest)) =
    (c :: k1) ++ 61 :: (joinSemi vs ++ 10 :: rest) from rfl]
  rw [pce_mid hk hvs]

theorem parse_entry_content_end {k : List Nat} {vs : List (List Nat)}
    (hk : goodKey k = true) (hvs : vs.all goodValue = true) :
    parse_entry (k ++ 61 :: joinSemi vs) = .ok ([], .content ⟨k, vs, none⟩) := by
  obtain ⟨c, k1, rfl⟩ : ∃ c k1, k = c :: k1 := by
    cases k with
    | nil => exact absurd rfl (goodKey_ne_nil hk)
    | cons c k1 => exact ⟨c, k1, rfl⟩
  have hc : goodKeyByte c = true := by
    have := goodKey_all hk
    rw [List.all_eq_true] at this
    exact this c (by simp)
  unfold parse_entry
  rw [show (c :: k1) ++ 61 :: joinSemi vs = c :: (k1 ++ 61 :: joinSemi vs) from rfl]
  rw [comment_fail_head (goodKeyByte_sep hc).1 (goodKeyByte_sep hc).2.1]
  rw [show c :: (k1 ++ 61 :: joinSemi vs) = (c :: k1) ++ 61 :: joinSemi vs from rfl]
  rw [pce_end hk hvs]

theorem parse_entry_blank {b rest : List Nat} (hb : goodBlank b = true)
    (hrest : ∀ c, rest.head? = some c → isMultispace c = false) :
    parse_entry (b ++ rest) = .ok (rest, .comment (.blank b)) := by
  unfold parse_entry
  rw [blank_comment_good hb hrest]

theorem parse_entry_text {s rest : List Nat} (hs : goodText s = true) :
    parse_entry ((35 :: 32 :: s) ++ 10 :: rest) = .ok (rest, .comment (.text s)) := by
  unfold parse_entry
  rw [text_comment_good hs]

/-! ## Claim C2: group-content and document-level lemmas -/

theorem many0F_step {α : Type} (p : List Nat → ParseResult α) {fuel : Nat}
    {input rem res : List Nat} {v : α} {vs : List α}
    (hp : p input = .ok (rem, v)) (hne : rem.length ≠ input.length)
    (hrec : many0F p fuel rem = .ok (res, vs)) :
    many0F p (fuel + 1) input = .ok (res, v :: vs) := by
  rw [many0F]
  rw [hp]
  simp only
  rw [if_neg hne]
  rw [hrec]

theorem many0F_stop {α : Type} (p : List Nat → ParseResult α) {fuel : Nat}
    {stop : List Nat} (hfuel : 1 ≤ fuel)
    (hfail : ∃ e, p stop = .error e) :
    many0F p fuel stop = .ok (stop, []) := by
  obtain ⟨e, he⟩ := hfail
  cases fuel with
  | zero => omega
  | succ f =>
    rw [many0F]
    rw [he]

theorem disp_content (k : List Nat) (vs : List (List Nat)) :
    Entry.display (.content ⟨k, vs, none⟩) = k ++ 61 :: joinSemi vs := by
  simp [Entry.display, ContentEntry.display]

theorem goodEntry_content {e : ContentEntry} (h : goodEntry (.content e) = true) :
    ∃ k vs, e = ⟨k, vs, none⟩ ∧ goodKey k = true ∧ vs.all goodValue = true := by
  obtain ⟨k, vs, lo⟩ := e
  simp only [goodEntry, Bool.and_eq_true] at h
  cases lo with
  | some l => simp [Option.isNone] at h
  | none => exact ⟨k, vs, rfl, h.1.1, h.2⟩

theorem disp_good_ne_nil {x : Entry} (h : goodEntry x = true) : Entry.display x ≠ [] := by
  cases x with
  | content e =>
    obtain ⟨k, vs, rfl, hk, _⟩ := goodEntry_content h
    rw [disp_content]
    have := goodKey_ne_nil hk
    cases k with
    | nil => exact absurd rfl this
    | cons c k1 => simp
  | comment c =>
    cases c with
    | text s => simp [Entry.display, CommentEntry.display]
    | blank b =>
      have := goodBlank_ne_nil (by simpa [goodEntry] using h)
      simpa [Entry.display, CommentEntry.display] using this

theorem head_disp_not_ms {y : Entry} (hy : goodEntry y = true) (hnb : y.is_blank = false) :
    ∀ c, (Entry.display y).head? = some c → isMultispace c = false := by
  intro c hc
  cases y with
  | content e =>
    obtain ⟨k, vs, rfl, hk, _⟩ := goodEntry_content hy
    rw [disp_content] at hc
    obtain ⟨a, k1, rfl⟩ : ∃ a k1, k = a :: k1 := by
      cases k with
      | nil => exact absurd rfl (goodKey_ne_nil hk)
      | cons a k1 => exact ⟨a, k1, rfl⟩
    simp only [List.cons_append, List.head?_cons, Option.some.injEq] at hc
    have hall := goodKey_all hk
    rw [List.all_eq_true] at hall
    rw [← hc]
    exact (goodKeyByte_sep (hall a (by simp))).1
  | comment cm =>
    cases cm with
    | text s =>
      simp only [Entry.display, CommentEntry.display, List.head?_cons, Option.some.injEq] at hc
      subst hc
      rfl
    | blank b => simp [Entry.is_blank, CommentEntry.is_blank] at hnb

theorem head_wc_not_ms {y : Entry} {rest2 : List Entry} {tl : List Nat}
    (hy : goodEntry y = true) (hnb : y.is_blank = false) :
    ∀ c, (write_content Entry.display Entry.is_blank (y :: rest2) ++ tl).head? = some c →
      isMultispace c = false := by
  intro c hc
  have hne := disp_good_ne_nil hy
  cases rest2 with
  | nil =>
    rw [show write_content Entry.display Entry.is_blank [y] = Entry.display y from rfl] at hc
    rw [head?_append_ne_nil hne] at hc
    exact head_disp_not_ms hy hnb c hc
  | cons z rest3 =>
    rw [show write_content Entry.display Entry.is_blank (y :: z :: rest3) =
      Entry.display y ++ ((if Entry.is_blank y then [] else [10]) ++
        write_content Entry.display Entry.is_blank (z :: rest3)) from by
        rw [write_content]; rw [List.append_assoc]] at hc
    rw [List.append_assoc, head?_append_ne_nil hne] at hc
    exact head_disp_not_ms hy hnb c hc

theorem getLast?_cons_cons_entry (x y : Entry) (r : List Entry) :
    (x :: y :: r).getLast? = (y :: r).getLast? := by
  simp [List.getLast?_cons_cons]

theorem many0_entries : ∀ (es : List Entry) (fuel : Nat) (stop tl : List Nat),
    es.all goodEntry = true →
    noAdjBlank Entry.is_blank es = true →
    ((stop = [] ∧ tl = [] ∧ lastEntryOkLast es = true) ∨
     (tl = 10 :: stop ∧ lastEntryOkMid es = true ∧
       ∃ h2 W2, stop = 91 :: (h2 ++ 93 :: 10 :: W2) ∧ goodHeader h2 = true)) →
    (write_content Entry.display Entry.is_blank es ++ tl).length < fuel →
    many0F parse_entry fuel (write_content Entry.display Entry.is_blank es ++ tl) =
      .ok (stop, es) := by
  intro es
  induction es with
  | nil =>
    intro fuel stop tl hall hadj hmode hfuel
    rcases hmode with ⟨rfl, rfl, _⟩ | ⟨rfl, hmid, _⟩
    · exact many0F_stop _ (by simp at hfuel; omega) ⟨([], .char), parse_entry_nil⟩
    · simp [lastEntryOkMid] at hmid
  | cons x rest ih =>
    intro fuel stop tl hall hadj hmode hfuel
    simp only [List.all_cons, Bool.and_eq_true] at hall
    obtain ⟨hx, hrest⟩ := hall
    cases rest with
    | nil =>
      rw [show write_content Entry.display Entry.is_blank [x] = Entry.display x from rfl]
        at hfuel ⊢
      cases fuel with
      | zero => simp at hfuel
      | succ f =>
        cases x with
        | content e =>
          obtain ⟨k, vs, rfl, hk, hvs⟩ := goodEntry_content hx
          rw [disp_content] at hfuel ⊢
          rcases hmode with ⟨rfl, rfl, _⟩ | ⟨rfl, _, h2, W2, rfl, hh2⟩
          · rw [List.append_nil] at hfuel ⊢
            refine many0F_step _ (parse_entry_content_end hk hvs) ?_ ?_
            · have := goodKey_ne_nil hk
              cases k with
              | nil => exact absurd rfl this
              | cons a k1 => simp
            · refine many0F_stop _ ?_ ⟨([], .char), parse_entry_nil⟩
              simp only [List.length_append, List.length_cons] at hfuel
              omega
          · rw [show (k ++ 61 :: joinSemi vs) ++ 10 :: (91 :: (h2 ++ 93 :: 10 :: W2)) =
              k ++ 61 :: (joinSemi vs ++ 10 :: (91 :: (h2 ++ 93 :: 10 :: W2))) from by
                simp] at hfuel ⊢
            refine many0F_step _ (parse_entry_content_mid hk hvs) ?_ ?_
            · simp only [List.length_append, List.length_cons]
              have := goodKey_ne_nil hk
              cases k with
              | nil => exact absurd rfl this
              | cons a k1 => simp; omega
            · refine many0F_stop _ ?_ ⟨(10 :: W2, .char), parse_entry_group_start hh2⟩
              simp only [List.length_append, List.length_cons] at hfuel
              omega
        | comment cm =>
          cases cm with
          | text s =>
            rcases hmode with ⟨rfl, rfl, hlast⟩ | ⟨rfl, _, h2, W2, rfl, hh2⟩
            · simp [lastEntryOkLast] at hlast
            · rw [show Entry.display (.comment (.text s)) = 35 :: 32 :: s from rfl]
                at hfuel ⊢
              have hs : goodText s = true := by simpa [goodEntry] using hx
              refine many0F_step _ (parse_entry_text hs) ?_ ?_
              · simp only [List.length_append, List.length_cons]
                omega
              · refine many0F_stop _ ?_ ⟨(10 :: W2, .char), parse_entry_group_start hh2⟩
                simp only [List.length_append, List.length_cons] at hfuel
                omega
          | blank b =>
            rcases hmode with ⟨rfl, rfl, _⟩ | ⟨rfl, hmid, _⟩
            · rw [show Entry.display (.comment (.blank b)) = b from rfl] at hfuel ⊢
              rw [List.append_nil] at hfuel ⊢
              have hb : goodBlank b = true := by simpa [goodEntry] using hx
              have hp : parse_entry (b ++ []) = .ok ([], .comment (.blank b)) :=
                parse_entry_blank hb (fun c hc => by simp at hc)
              rw [List.append_nil] at hp
              refine many0F_step _ hp ?_ ?_
              · have := goodBlank_ne_nil hb
                cases b with
                | nil => exact absurd rfl this
                | cons a b1 => simp
              · refine many0F_stop _ ?_ ⟨([], .char), parse_entry_nil⟩
                have := goodBlank_ne_nil hb
                cases b with
                | nil => exact absurd rfl this
                | cons a b1 => simp at hfuel; omega
            · simp [lastEntryOkMid, Entry.is_blank, CommentEntry.is_blank] at hmid
    | cons y rest2 =>
      rw [show write_content Entry.display Entry.is_blank (x :: y :: rest2) =
        Entry.display x ++ ((if Entry.is_blank x then [] else [10]) ++
          write_content Entry.display Entry.is_blank (y :: rest2)) from by
          rw [write_content]; rw [List.append_assoc]] at hfuel ⊢
      have hmode2 : (stop = [] ∧ tl = [] ∧ lastEntryOkLast (y :: rest2) = true) ∨
          (tl = 10 :: stop ∧ lastEntryOkMid (y :: rest2) = true ∧
            ∃ h2 W2, stop = 91 :: (h2 ++ 93 :: 10 :: W2) ∧ goodHeader h2 = true) := by
        rcases hmode with ⟨h1, h2, h3⟩ | ⟨h1, h2, h3⟩
        · exact Or.inl ⟨h1, h2, by
            rw [lastEntryOkLast] at h3 ⊢
            rw [getLast?_cons_cons_entry] at h3
            exact h3⟩
        · exact Or.inr ⟨h1, by
            rw [lastEntryOkMid] at h2 ⊢
            rw [getLast?_cons_cons_entry] at h2
            exact h2, h3⟩
      have hadj2 : noAdjBlank Entry.is_blank (y :: rest2) = true := by
        rw [noAdjBlank] at hadj
        simp only [Bool.and_eq_true] at hadj
        exact hadj.2
      cases fuel with
      | zero => simp at hfuel
      | succ f =>
        cases x with
        | content e =>
          obtain ⟨k, vs, rfl, hk, hvs⟩ := goodEntry_content hx
          rw [show Entry.display (.content ⟨k, vs, none⟩) ++
              ((if Entry.is_blank (.content ⟨k, vs, none⟩) then [] else [10]) ++
                write_content Entry.display Entry.is_blank (y :: rest2)) ++ tl =
            k ++ 61 :: (joinSemi vs ++ 10 ::
              (write_content Entry.display Entry.is_blank (y :: rest2) ++ tl)) from by
              simp [Entry.display, ContentEntry.display, Entry.is_blank]] at hfuel ⊢
          refine many0F_step _ (parse_entry_content_mid hk hvs) ?_ ?_
          · simp only [List.length_append, List.length_cons]
            have := goodKey_ne_nil hk
            cases k with
            | nil => exact absurd rfl this
            | cons a k1 => simp; omega
          · refine ih f stop tl hrest hadj2 hmode2 ?_
            simp only [List.length_append, List.length_cons] at hfuel ⊢
            omega
        | comment cm =>
          cases cm with
          | text s =>
            have hs : goodText s = true := by simpa [goodEntry] using hx
            rw [show Entry.display (.comment (.text s)) ++
                ((if Entry.is_blank (.comment (.text s)) then [] else [10]) ++
                  write_content Entry.display Entry.is_blank (y :: rest2)) ++ tl =
              (35 :: 32 :: s) ++ 10 ::
                (write_content Entry.display Entry.is_blank (y :: rest2) ++ tl) from by
                simp [Entry.display, CommentEntry.display, Entry.is_blank,
                  CommentEntry.is_blank]] at hfuel ⊢
            refine many0F_step _ (parse_entry_text hs) ?_ ?_
            · simp only [List.length_append, List.length_cons]
              omega
            · refine ih f stop tl hrest hadj2 hmode2 ?_
              simp only [List.length_append, List.length_cons] at hfuel ⊢
              omega
          | blank b =>
            have hb : goodBlank b = true := by simpa [goodEntry] using hx
            rw [show Entry.display (.comment (.blank b)) ++
                ((if Entry.is_blank (.comment (.blank b)) then [] else [10]) ++
                  write_content Entry.display Entry.is_blank (y :: rest2)) ++ tl =
              b ++ (write_content Entry.display Entry.is_blank (y :: rest2) ++ tl) from by
                simp [Entry.display, CommentEntry.display, Entry.is_blank,
                  CommentEntry.is_blank]] at hfuel ⊢
            have hynb : Entry.is_blank y = false := by
              rw [noAdjBlank] at hadj
              simp only [Bool.and_eq_true, Bool.not_eq_true', Bool.and_eq_false_iff] at hadj
              rcases hadj.1 with h | h
              · simp [Entry.is_blank, CommentEntry.is_blank] at h
              · exact h
            have hygood : goodEntry y = true := by
              simp only [List.all_cons, Bool.and_eq_true] at hrest
              exact hrest.1
            refine many0F_step _
              (parse_entry_blank hb (head_wc_not_ms hygood hynb)) ?_ ?_
            · have := goodBlank_ne_nil hb
              cases b with
              | nil => exact absurd rfl this
              | cons a b1 =>
                simp only [List.length_append, List.length_cons]
                omega
            · refine ih f stop tl hrest hadj2 hmode2 ?_
              have := goodBlank_ne_nil hb
              cases b with
              | nil => exact absurd rfl this
              | cons a b1 =>
                simp only [List.length_append, List.length_cons] at hfuel ⊢
                omega

/-! ## Claim C2: group-level parser lemmas -/

theorem parse_group_header_good {h2 W : List Nat} (hh2 : goodHeader h2 = true) :
    parse_group_header (91 :: (h2 ++ 93 :: 10 :: W)) = .ok (W, h2) := by
  rw [goodHeader, List.all_eq_true] at hh2
  have hp : ∀ c ∈ h2, (fun (c : Nat) => c ≠ 91 && c ≠ 93) c = true := by
    intro c hc
    have := hh2 c hc
    simp only [Bool.and_eq_true, decide_eq_true_eq] at this ⊢
    exact ⟨this.1.1.1.2, this.1.1.2⟩
  have hvalid : utf8Valid h2 = true := by
    refine utf8Valid_ascii h2 fun c hc => ?_
    have := hh2 c hc
    simp only [Bool.and_eq_true, decide_eq_true_eq] at this
    exact this.1.1.1.1
  unfold parse_group_header
  rw [show pchar 91 (91 :: (h2 ++ 93 :: 10 :: W)) = .ok (h2 ++ 93 :: 10 :: W, 91) from by
    simp [pchar]]
  simp only
  rw [takeWhile_append_all _ _ _ hp (by intro c hc; simp at hc; subst hc; rfl),
    dropWhile_append_all _ _ _ hp (by intro c hc; simp at hc; subst hc; rfl)]
  rw [show pchar 93 (93 :: 10 :: W) = .ok (10 :: W, 93) from by simp [pchar]]
  simp only
  rw [show pchar 10 (10 :: W) = .ok (W, 10) from by simp [pchar]]
  simp only
  rw [utf8?, if_pos hvalid]

theorem parse_group_last {g : Group} (hg : goodGroupLast g = true) :
    parse_group (Group.display g) = .ok ([], g) := by
  simp only [goodGroupLast, Bool.and_eq_true] at hg
  obtain ⟨⟨⟨hh, hall⟩, hadj⟩, hlast⟩ := hg
  have hm := many0_entries g.content
    ((write_content Entry.display Entry.is_blank g.content).length + 1) [] []
    hall hadj (Or.inl ⟨rfl, rfl, hlast⟩) (by simp)
  rw [List.append_nil] at hm
  unfold parse_group
  rw [show Group.display g = 91 :: (g.header ++ 93 :: 10 ::
    write_content Entry.display Entry.is_blank g.content) from rfl]
  rw [parse_group_header_good hh]
  simp only
  unfold parse_group_content
  rw [hm]

theorem parse_group_mid {g : Group} {h2 W2 : List Nat} (hg : goodGroupMid g = true)
    (hh2 : goodHeader h2 = true) :
    parse_group (Group.display g ++ 10 :: 91 :: (h2 ++ 93 :: 10 :: W2)) =
      .ok (91 :: (h2 ++ 93 :: 10 :: W2), g) := by
  simp only [goodGroupMid, Bool.and_eq_true] at hg
  obtain ⟨⟨⟨hh, hall⟩, hadj⟩, hlast⟩ := hg
  have hm := many0_entries g.content
    ((write_content Entry.display Entry.is_blank g.content ++
      10 :: 91 :: (h2 ++ 93 :: 10 :: W2)).length + 1)
    (91 :: (h2 ++ 93 :: 10 :: W2)) (10 :: 91 :: (h2 ++ 93 :: 10 :: W2))
    hall hadj (Or.inr ⟨rfl, hlast, h2, W2, rfl, hh2⟩) (by simp)
  unfold parse_group
  rw [show Group.display g ++ 10 :: 91 :: (h2 ++ 93 :: 10 :: W2) =
    91 :: (g.header ++ 93 :: 10 ::
      (write_content Entry.display Entry.is_blank g.content ++
        10 :: 91 :: (h2 ++ 93 :: 10 :: W2))) from by
    simp [Group.display]]
  rw [parse_group_header_good hh]
  simp only
  unfold parse_group_content
  rw [hm]

theorem parse_group_fail_head {c : Nat} {X : List Nat} (hc : c ≠ 91) :
    parse_group (c :: X) = .error (c :: X, .char) := by
  unfold parse_group parse_group_header
  rw [show pchar 91 (c :: X) = .error (c :: X, .char) from by simp [pchar, hc]]

/-! ## Claim C2: top-level dispatch lemmas -/

theorem ptl_nil : parse_top_level_entry [] = .error ([], .char) := by decide

theorem ptl_group_last {g : Group} (hg : goodGroupLast g = true) :
    parse_top_level_entry (Group.display g) = .ok ([], .group g) := by
  unfold parse_top_level_entry
  rw [parse_group_last hg]

theorem ptl_group_mid {g : Group} {h2 W2 : List Nat} (hg : goodGroupMid g = true)
    (hh2 : goodHeader h2 = true) :
    parse_top_level_entry (Group.display g ++ 10 :: 91 :: (h2 ++ 93 :: 10 :: W2)) =
      .ok (91 :: (h2 ++ 93 :: 10 :: W2), .group g) := by
  unfold parse_top_level_entry
  rw [parse_group_mid hg hh2]

theorem ptl_text {s rest : List Nat} (hs : goodText s = true) :
    parse_top_level_entry ((35 :: 32 :: s) ++ 10 :: rest) =
      .ok (rest, .comment (.text s)) := by
  unfold parse_top_level_entry
  rw [show parse_group ((35 :: 32 :: s) ++ 10 :: rest) =
    .error ((35 :: 32 :: s) ++ 10 :: rest, .char) from by
      rw [show (35 :: 32 :: s) ++ 10 :: rest = 35 :: (32 :: s ++ 10 :: rest) from by simp]
      exact parse_group_fail_head (by decide)]
  simp only
  rw [text_comment_good hs]

theorem ptl_blank {b rest : List Nat} (hb : goodBlank b = true)
    (hrest : ∀ c, rest.head? = some c → isMultispace c = false) :
    parse_top_level_entry (b ++ rest) = .ok (rest, .comment (.blank b)) := by
  have hpg : parse_group (b ++ rest) = .error (b ++ rest, .char) := by
    cases b with
    | nil => exact absurd rfl (goodBlank_ne_nil hb)
    | cons a b1 =>
      show parse_group (a :: (b1 ++ rest)) = .error (a :: (b1 ++ rest), .char)
      refine parse_group_fail_head ?_
      have hall := goodBlank_all hb
      rw [List.all_eq_true] at hall
      have h1 := hall a (by simp)
      simp only [isMultispace, Bool.or_eq_true, decide_eq_true_eq] at h1
      omega
  unfold parse_top_level_entry
  rw [hpg]
  simp only
  rw [blank_comment_good hb hrest]

/-! ## Claim C2: shape of the top-level rendering -/

theorem wcT_group_shape (g2 : Group) (rest2 : List TopLevelEntry) :
    ∃ W2, write_content TopLevelEntry.display TopLevelEntry.is_blank (.group g2 :: rest2) =
      91 :: (g2.header ++ 93 :: 10 :: W2) := by
  cases rest2 with
  | nil => exact ⟨write_content Entry.display Entry.is_blank g2.content, rfl⟩
  | cons t r =>
    refine ⟨write_content Entry.display Entry.is_blank g2.content ++
      10 :: write_content TopLevelEntry.display TopLevelEntry.is_blank (t :: r), ?_⟩
    simp [write_content, TopLevelEntry.display, Group.display, TopLevelEntry.is_blank]

theorem wcT_head_not_ms {x : TopLevelEntry} {rest2 : List TopLevelEntry}
    (hnb : TopLevelEntry.is_blank x = false) :
    ∀ c, (write_content TopLevelEntry.display TopLevelEntry.is_blank (x :: rest2)).head? =
      some c → isMultispace c = false := by
  intro c hc
  have hd : ∃ t, write_content TopLevelEntry.display TopLevelEntry.is_blank (x :: rest2) =
      TopLevelEntry.display x ++ t := by
    cases rest2 with
    | nil => exact ⟨[], by simp [write_content]⟩
    | cons t r =>
      refine ⟨(if TopLevelEntry.is_blank x then [] else [10]) ++
        write_content TopLevelEntry.display TopLevelEntry.is_blank (t :: r), ?_⟩
      rw [write_content]
      rw [List.append_assoc]
  obtain ⟨t, ht⟩ := hd
  rw [ht] at hc
  cases x with
  | group g =>
    rw [show TopLevelEntry.display (.group g) = 91 :: (g.header ++ 93 :: 10 ::
      write_content Entry.display Entry.is_blank g.content) from rfl] at hc
    simp only [List.cons_append, List.head?_cons, Option.some.injEq] at hc
    rw [← hc]
    rfl
  | comment cm =>
    cases cm with
    | text s =>
      rw [show TopLevelEntry.display (.comment (.text s)) = 35 :: 32 :: s from rfl] at hc
      simp only [List.cons_append, List.head?_cons, Option.some.injEq] at hc
      rw [← hc]
      rfl
    | blank b => simp [TopLevelEntry.is_blank, CommentEntry.is_blank] at hnb

/-! ## Claim C2: the top-level many0 over a canonical rendering -/

theorem many0_tops : ∀ (tops : List TopLevelEntry) (fuel : Nat),
    goodTops tops = true →
    (write_content TopLevelEntry.display TopLevelEntry.is_blank tops).length < fuel →
    many0F parse_top_level_entry fuel
      (write_content TopLevelEntry.display TopLevelEntry.is_blank tops) =
      .ok ([], tops) := by
  intro tops
  induction tops with
  | nil =>
    intro fuel hg hfuel
    exact many0F_stop _ (by simp [write_content] at hfuel; omega) ⟨([], .char), ptl_nil⟩
  | cons x rest ih =>
    intro fuel hg hfuel
    cases fuel with
    | zero => omega
    | succ f =>
      cases x with
      | comment cm =>
        cases cm with
        | text s =>
          cases rest with
          | nil => simp [goodTops] at hg
          | cons y rest2 =>
            have hg2 : (goodText s && goodTops (y :: rest2)) = true := hg
            rw [Bool.and_eq_true] at hg2
            rw [show write_content TopLevelEntry.display TopLevelEntry.is_blank
                (.comment (.text s) :: y :: rest2) =
              (35 :: 32 :: s) ++ 10 ::
                write_content TopLevelEntry.display TopLevelEntry.is_blank (y :: rest2) from by
                simp [write_content, TopLevelEntry.display, CommentEntry.display,
                  TopLevelEntry.is_blank, CommentEntry.is_blank]] at hfuel ⊢
            refine many0F_step _ (ptl_text hg2.1) ?_ ?_
            · simp only [List.length_append, List.length_cons]
              omega
            · refine ih f hg2.2 ?_
              simp only [List.length_append, List.length_cons] at hfuel ⊢
              omega
        | blank b =>
          cases rest with
          | nil =>
            have hb : goodBlank b = true := hg
            cases hbb : b with
            | nil => rw [hbb] at hb; exact absurd rfl (goodBlank_ne_nil hb)
            | cons a b1 =>
              rw [← hbb]
              rw [show write_content TopLevelEntry.display TopLevelEntry.is_blank
                  [.comment (.blank b)] = b from rfl] at hfuel ⊢
              have hp : parse_top_level_entry (b ++ []) = .ok ([], .comment (.blank b)) :=
                ptl_blank hb (fun c hc => by simp at hc)
              rw [List.append_nil] at hp
              refine many0F_step _ hp ?_ ?_
              · rw [hbb]
                simp
              · refine many0F_stop _ ?_ ⟨([], .char), ptl_nil⟩
                rw [hbb] at hfuel
                simp only [List.length_cons] at hfuel
                omega
          | cons y rest2 =>
            have hg2 : (goodBlank b &&
                (match y :: rest2 with
                 | .comment (.blank _) :: _ => false
                 | _ => true) &&
                goodTops (y :: rest2)) = true := hg
            simp only [Bool.and_eq_true] at hg2
            obtain ⟨⟨hb, hguard⟩, hrest⟩ := hg2
            have hynb : TopLevelEntry.is_blank y = false := by
              cases y with
              | group g => rfl
              | comment c0 =>
                cases c0 with
                | text s => rfl
                | blank bb => simp at hguard
            rw [show write_content TopLevelEntry.display TopLevelEntry.is_blank
                (.comment (.blank b) :: y :: rest2) =
              b ++ write_content TopLevelEntry.display TopLevelEntry.is_blank (y :: rest2)
                from by
                simp [write_content, TopLevelEntry.display, CommentEntry.display,
                  TopLevelEntry.is_blank, CommentEntry.is_blank]] at hfuel ⊢
            refine many0F_step _ (ptl_blank hb (wcT_head_not_ms hynb)) ?_ ?_
            · have hbn := goodBlank_ne_nil hb
              cases b with
              | nil => exact absurd rfl hbn
              | cons a b1 =>
                simp only [List.length_append, List.length_cons]
                omega
            · refine ih f hrest ?_
              have hlen : 1 ≤ b.length := by
                have hbn := goodBlank_ne_nil hb
                cases b with
                | nil => exact absurd rfl hbn
                | cons a b1 => simp
              simp only [List.length_append] at hfuel ⊢
              omega
      | group g =>
        have hg2 : allGroupsGood (.group g :: rest) = true := hg
        cases rest with
        | nil =>
          have hgl : goodGroupLast g = true := hg2
          rw [show write_content TopLevelEntry.display TopLevelEntry.is_blank [.group g] =
            Group.display g from rfl] at hfuel ⊢
          refine many0F_step _ (ptl_group_last hgl) ?_ ?_
          · simp [Group.display]
          · refine many0F_stop _ ?_ ⟨([], .char), ptl_nil⟩
            simp only [Group.display, List.length_cons] at hfuel
            omega
        | cons y rest2 =>
          have hg3 : (goodGroupMid g && allGroupsGood (y :: rest2)) = true := hg2
          rw [Bool.and_eq_true] at hg3
          obtain ⟨hgm, hrest2⟩ := hg3
          cases y with
          | comment c0 => simp [allGroupsGood] at hrest2
          | group g2 =>
            have hh2 : goodHeader g2.header = true := by
              cases rest2 with
              | nil =>
                have h4 : goodGroupLast g2 = true := hrest2
                simp only [goodGroupLast, Bool.and_eq_true] at h4
                exact h4.1.1.1
              | cons z r3 =>
                have h4 : (goodGroupMid g2 && allGroupsGood (z :: r3)) = true := hrest2
                simp only [goodGroupMid, Bool.and_eq_true] at h4
                exact h4.1.1.1.1
            obtain ⟨W2, hW2⟩ := wcT_group_shape g2 rest2
            rw [show write_content TopLevelEntry.display TopLevelEntry.is_blank
                (.group g :: .group g2 :: rest2) =
              Group.display g ++ 10 ::
                write_content TopLevelEntry.display TopLevelEntry.is_blank
                  (.group g2 :: rest2) from by
                simp [write_content, TopLevelEntry.display, TopLevelEntry.is_blank]]
              at hfuel ⊢
            rw [hW2] at hfuel ⊢
            refine many0F_step _ (ptl_group_mid hgm hh2) ?_ ?_
            · simp only [Group.display, List.length_append, List.length_cons]
              omega
            · rw [← hW2]
              refine ih f hrest2 ?_
              rw [hW2]
              simp only [Group.display, List.length_append, List.length_cons] at hfuel ⊢
              omega

/-! ## Claim C2: the round trip on the canonical class -/

theorem parse_render {d : DesktopFile} (h : GoodDoc d = true) :
    DesktopFile.tryFrom d.display = .ok d := by
  unfold DesktopFile.tryFrom
  rw [show DesktopFile.display d =
    write_content TopLevelEntry.display TopLevelEntry.is_blank d.content from rfl]
  rw [many0_tops d.content _ h (Nat.lt_succ_self _)]

/-- C2: the round-trip claim as stated is false (C2_counterexample); the
corrected statement is proved here: render(parse(x)) = x for every x in the
canonical-layout image, i.e. every byte sequence that is the rendering of a
document satisfying GoodDoc (directly-representable trimmed values,
alphanumeric-dash keys, bracketless headers, comments written as hash-space
plus text, no adjacent blank runs, comments before the first group, no group
before another ending empty or in a blank, and no final newline-consuming
item). -/
theorem C2_amended (x : List Nat) (h : ∃ d, GoodDoc d = true ∧ d.display = x) :
    ∃ d2, DesktopFile.tryFrom x = .ok d2 ∧ d2.display = x := by
  obtain ⟨d, hd, rfl⟩ := h
  exact ⟨d, parse_render hd, rfl⟩

/-- A sample canonical-layout document: a leading text comment and blank
line, a group with single- and multi-valued entries, an inner blank line
and inner comment, and a second group. -/
def sampleDoc : DesktopFile :=
  { content := [
      .comment (.text (strBytes "Desktop entry")),
      .comment (.blank [10]),
      .group { header := strBytes "Desktop Entry", content := [
        .content { key := strBytes "Name", values := [strBytes "Files"], locale := none },
        .content { key := strBytes "Categories",
                   values := [strBytes "GTK", strBytes "System"], locale := none },
        .comment (.blank [10]),
        .comment (.text (strBytes "second group follows")),
        .content { key := strBytes "X-Flag", values := [strBytes "true"], locale := none } ] },
      .group { header := strBytes "Extra", content := [
        .content { key := strBytes "Exec", values := [strBytes "nautilus"],
                   locale := none } ] } ] }

/-- C2 witness: the sample canonical document's rendering parses back and
re-renders to the same bytes. -/
theorem C2_witness :
    ∃ d2, DesktopFile.tryFrom sampleDoc.display = .ok d2 ∧
      d2.display = sampleDoc.display :=
  C2_amended sampleDoc.display ⟨sampleDoc, by decide, rfl⟩


end Freedesktop
